import Mathlib

/-!
Verification of the PO multiline parser/rewriter (`Translate.py`).

Strings are modelled as `List Char`; Python string methods are embedded as
executable functions on character lists.
-/

set_option autoImplicit false

namespace Gabut

/-- Python `str.strip()`: drop whitespace from both ends. -/
def pyStrip (s : List Char) : List Char :=
  ((s.dropWhile Char.isWhitespace).reverse.dropWhile Char.isWhitespace).reverse

/-- Python `str.rstrip()`: drop trailing whitespace. -/
def pyRstrip (s : List Char) : List Char :=
  (s.reverse.dropWhile Char.isWhitespace).reverse

/-- Fuel-driven worker for `replaceAll`; the fuel only makes the recursion
structural and is irrelevant as soon as it is at least the string length. -/
def replaceAllF (pat rep : List Char) : Nat → List Char → List Char
  | 0, s => s
  | _ + 1, [] => []
  | f + 1, c :: rest =>
    if pat.isPrefixOf (c :: rest) then
      rep ++ replaceAllF pat rep f ((c :: rest).drop pat.length)
    else
      c :: replaceAllF pat rep f rest

/-- Python `str.replace(pat, rep)` for nonempty `pat`: replace all
non-overlapping occurrences of `pat`, scanning left to right and continuing
after each replacement. -/
def replaceAll (pat rep s : List Char) : List Char :=
  if pat = [] then s else replaceAllF pat rep s.length s

theorem replaceAllF_fuel (pat rep : List Char) (hp : pat ≠ []) :
    ∀ f f' s, s.length ≤ f → s.length ≤ f' →
      replaceAllF pat rep f s = replaceAllF pat rep f' s := by
  intro f
  induction f with
  | zero =>
    intro f' s hf _
    have hnil : s = [] := List.eq_nil_of_length_eq_zero (Nat.le_zero.mp hf)
    subst hnil
    cases f' <;> rfl
  | succ f ih =>
    intro f' s hf hf'
    match s, f' with
    | [], f' => cases f' <;> rfl
    | c :: rest, 0 => exact absurd hf' (by simp)
    | c :: rest, f'' + 1 =>
      simp only [replaceAllF]
      have hlen : ((c :: rest).drop pat.length).length ≤ rest.length := by
        simp only [List.length_drop, List.length_cons]
        have : 0 < pat.length := List.length_pos.mpr hp
        omega
      have hf1 : rest.length ≤ f := by simp only [List.length_cons] at hf; omega
      have hf2 : rest.length ≤ f'' := by simp only [List.length_cons] at hf'; omega
      cases hpre : pat.isPrefixOf (c :: rest) with
      | false =>
        simp only [Bool.false_eq_true, if_false]
        rw [ih f'' rest hf1 hf2]
      | true =>
        simp only [if_true]
        rw [ih f'' _ (Nat.le_trans hlen hf1) (Nat.le_trans hlen hf2)]

@[simp] theorem replaceAll_nil (pat rep : List Char) : replaceAll pat rep [] = [] := by
  simp [replaceAll, replaceAllF]

theorem replaceAll_cons (pat rep : List Char) (hp : pat ≠ []) (c : Char) (rest : List Char) :
    replaceAll pat rep (c :: rest) =
      if pat <+: (c :: rest) then
        rep ++ replaceAll pat rep ((c :: rest).drop pat.length)
      else
        c :: replaceAll pat rep rest := by
  simp only [replaceAll, hp, if_false, List.length_cons]
  rw [show replaceAllF pat rep (rest.length + 1) (c :: rest)
      = if pat.isPrefixOf (c :: rest) then
          rep ++ replaceAllF pat rep rest.length ((c :: rest).drop pat.length)
        else c :: replaceAllF pat rep rest.length rest from rfl]
  by_cases hpre : pat <+: (c :: rest)
  · have hb : pat.isPrefixOf (c :: rest) = true := List.isPrefixOf_iff_prefix.mpr hpre
    simp only [hb, if_true, hpre]
    congr 1
    apply replaceAllF_fuel pat rep hp
    · simp only [List.length_drop, List.length_cons]
      have : 0 < pat.length := List.length_pos.mpr hp
      omega
    · exact Nat.le_refl _
  · have hb : pat.isPrefixOf (c :: rest) = false := by
      rw [Bool.eq_false_iff]
      intro hcon
      exact hpre (List.isPrefixOf_iff_prefix.mp hcon)
    simp only [hb, if_false, hpre]
    rfl

/-- The five escape sequences of `escape_map` in `protect_text`
(Translate.py lines 115-121), in Python dict insertion order. -/
def escSeqs : List (List Char) :=
  [['\\', 'n'], ['\\', 't'], ['\\', '"'], ['\\', '\\'], ['\\', 'r']]

/-- The five sentinel strings of `escape_map`, in the same order. -/
def escSents : List (List Char) :=
  ["<!NEWLINE!>".toList, "<!TAB!>".toList, "<!QUOTE!>".toList,
   "<!BACKSLASH!>".toList, "<!CARRIAGE!>".toList]

/-- `escape_map` from `protect_text` (Translate.py lines 115-121). -/
def escape_map : List (List Char × List Char) := escSeqs.zip escSents

/-- The escape-guarding loop at the end of `protect_text`
(Translate.py lines 123-124): sequential `str.replace` over `escape_map`. -/
def guardEscapes (s : List Char) : List Char :=
  escape_map.foldl (fun acc pr => replaceAll pr.1 pr.2 acc) s

/-- `restore_map` in `translate_text` (Translate.py lines 162-168). -/
def restore_map : List (List Char × List Char) := escSents.zip escSeqs

/-- The escape-restoring loop in `translate_text` (Translate.py lines 170-171). -/
def unguardEscapes (s : List Char) : List Char :=
  restore_map.foldl (fun acc pr => replaceAll pr.1 pr.2 acc) s

/-- Escape sequence number `k` (0 = `\n`, 1 = `\t`, 2 = `\"`, 3 = `\\`, 4 = `\r`). -/
def sq (k : Fin 5) : List Char := escSeqs.get (Fin.cast (by rfl) k)

/-- Sentinel string number `k`. -/
def st (k : Fin 5) : List Char := escSents.get (Fin.cast (by rfl) k)

example : guardEscapes "a\\nb".toList = "a<!NEWLINE!>b".toList := by decide
example : unguardEscapes (guardEscapes "a\\n\\\\b".toList) = "a\\n\\\\b".toList := by decide

/-! ### Escape guard round trip -/

theorem not_prefix_append {pat s b : List Char} (h1 : ¬s <+: pat) (h2 : ¬pat <+: s) :
    ¬pat <+: s ++ b := by
  intro hcon
  rcases Nat.le_total pat.length s.length with hle | hle
  · exact h2 (List.prefix_of_prefix_length_le hcon (List.prefix_append s b) hle)
  · exact h1 (List.prefix_of_prefix_length_le (List.prefix_append s b) hcon hle)

/-- `replaceAll` walks over a block `a` in which no match can start. -/
theorem replaceAll_skip (pat rep : List Char) (hp : pat ≠ []) (b : List Char) :
    ∀ a : List Char, (∀ s ∈ a.tails, s = [] ∨ (¬s <+: pat ∧ ¬pat <+: s)) →
      replaceAll pat rep (a ++ b) = a ++ replaceAll pat rep b := by
  intro a
  induction a with
  | nil => simp
  | cons c a ih =>
    intro h
    rw [List.cons_append, replaceAll_cons pat rep hp]
    have hsa := h (c :: a) (by rw [List.mem_tails])
    rcases hsa with hnil | ⟨h1, h2⟩
    · exact absurd hnil (by simp)
    · rw [if_neg (show ¬pat <+: c :: (a ++ b) from not_prefix_append h1 h2)]
      rw [ih (fun s hs => h s (by rw [List.tails_cons]; exact List.mem_cons_of_mem _ hs))]
      rfl

/-- Abstract view of a partially guarded string: plain characters interleaved
with sentinel tokens standing for guarded escape sequences. -/
inductive ETok
  | ch (c : Char)
  | esc (k : Fin 5)
deriving DecidableEq

/-- Second character of escape sequence `k` (the first is always a backslash). -/
def sqc (k : Fin 5) : Char := (sq k).getD 1 ' '

/-- Concrete rendering: sentinel tokens stand as sentinel strings. -/
def rSent : List ETok → List Char
  | [] => []
  | .ch c :: ts => c :: rSent ts
  | .esc k :: ts => st k ++ rSent ts

/-- Abstract rendering: sentinel tokens stand as the escape sequences they
were produced from. -/
def rSeq : List ETok → List Char
  | [] => []
  | .ch c :: ts => c :: rSeq ts
  | .esc k :: ts => sq k ++ rSeq ts

@[simp] theorem rSent_nil : rSent [] = [] := rfl
@[simp] theorem rSent_ch (c : Char) (ts : List ETok) :
    rSent (.ch c :: ts) = c :: rSent ts := rfl
@[simp] theorem rSent_esc (k : Fin 5) (ts : List ETok) :
    rSent (.esc k :: ts) = st k ++ rSent ts := rfl
@[simp] theorem rSeq_nil : rSeq [] = [] := rfl
@[simp] theorem rSeq_ch (c : Char) (ts : List ETok) :
    rSeq (.ch c :: ts) = c :: rSeq ts := rfl
@[simp] theorem rSeq_esc (k : Fin 5) (ts : List ETok) :
    rSeq (.esc k :: ts) = sq k ++ rSeq ts := rfl

/-- Token-level effect of guarding pass `k`: replace adjacent character pairs
spelling escape sequence `k` by its sentinel token, left to right. -/
def tokRepl (k : Fin 5) : List ETok → List ETok
  | [] => []
  | .esc i :: ts => .esc i :: tokRepl k ts
  | [.ch a] => [.ch a]
  | .ch a :: .esc i :: ts => .ch a :: .esc i :: tokRepl k ts
  | .ch a :: .ch b :: ts =>
    if [a, b] = sq k then .esc k :: tokRepl k ts
    else .ch a :: tokRepl k (.ch b :: ts)

/-- Token-level effect of unguarding pass `k`: expand sentinel token `k` back
into its two-character escape sequence. -/
def tokUnrepl (k : Fin 5) : List ETok → List ETok
  | [] => []
  | .ch c :: ts => .ch c :: tokUnrepl k ts
  | .esc j :: ts =>
    if j = k then .ch '\\' :: .ch (sqc k) :: tokUnrepl k ts
    else .esc j :: tokUnrepl k ts

theorem sq_eq (k : Fin 5) : sq k = ['\\', sqc k] := by revert k; decide
theorem sq_ne_nil (k : Fin 5) : sq k ≠ [] := by revert k; decide
theorem sqc_ne_lt (k : Fin 5) : sqc k ≠ '<' := by revert k; decide
theorem st_head_tail (k : Fin 5) : st k = '<' :: (st k).drop 1 := by revert k; decide
theorem st_tail_no_lt (k : Fin 5) : ∀ c ∈ (st k).drop 1, c ≠ '<' := by revert k; decide

/-- No suffix of a sentinel is prefix-compatible with an escape sequence. -/
theorem st_tails_vs_sq (i k : Fin 5) :
    ∀ s ∈ (st i).tails, s = [] ∨ (¬s <+: sq k ∧ ¬sq k <+: s) := by revert i k; decide

/-- Distinct sentinels are prefix-incompatible, even along suffixes. -/
theorem st_tails_vs_st (i k : Fin 5) (hne : i ≠ k) :
    ∀ s ∈ (st i).tails, s = [] ∨ (¬s <+: st k ∧ ¬st k <+: s) := by
  revert hne
  revert i k
  decide

theorem sq_not_prefix_st_append (k i : Fin 5) (a : Char) (l : List Char) :
    ¬sq k <+: a :: (st i ++ l) := by
  rw [sq_eq]
  intro hcon
  rw [List.cons_prefix_cons] at hcon
  have htail := hcon.2
  rw [st_head_tail i, List.cons_append, List.cons_prefix_cons] at htail
  exact sqc_ne_lt k htail.1

/-- The guarding pass for escape `k` acts on a rendered token string exactly as
`tokRepl k` acts on the tokens. -/
theorem guard_pass (k : Fin 5) :
    ∀ n, ∀ ts : List ETok, ts.length ≤ n →
      replaceAll (sq k) (st k) (rSent ts) = rSent (tokRepl k ts) := by
  intro n
  induction n with
  | zero =>
    intro ts h
    have hnil : ts = [] := List.eq_nil_of_length_eq_zero (Nat.le_zero.mp h)
    subst hnil
    simp [tokRepl]
  | succ n ih =>
    intro ts hlen
    cases ts with
    | nil => simp [tokRepl]
    | cons t rest =>
      cases t with
      | esc i =>
        have hrw : tokRepl k (.esc i :: rest) = .esc i :: tokRepl k rest := rfl
        rw [hrw, rSent_esc, rSent_esc,
          replaceAll_skip (sq k) (st k) (sq_ne_nil k) (rSent rest) (st i) (st_tails_vs_sq i k),
          ih rest (by simpa using Nat.le_of_succ_le_succ (by simpa using hlen))]
      | ch a =>
        cases rest with
        | nil =>
          have hne : ¬sq k <+: [a] := by
            intro hcon
            have := hcon.length_le
            rw [sq_eq] at this
            simp at this
          rw [show tokRepl k [.ch a] = [.ch a] from rfl]
          rw [rSent_ch, rSent_nil, replaceAll_cons _ _ (sq_ne_nil k), if_neg hne]
          simp
        | cons t2 rest2 =>
          have hlen2 : rest2.length ≤ n := by
            simp only [List.length_cons] at hlen
            omega
          have hlen1 : (t2 :: rest2).length ≤ n := by
            simp only [List.length_cons] at hlen ⊢
            omega
          cases t2 with
          | esc i =>
            have hrw : tokRepl k (.ch a :: .esc i :: rest2)
                = .ch a :: .esc i :: tokRepl k rest2 := rfl
            have hstep : replaceAll (sq k) (st k) (rSent (.ch a :: .esc i :: rest2))
                = a :: replaceAll (sq k) (st k) (rSent (.esc i :: rest2)) := by
              rw [rSent_ch, rSent_esc, replaceAll_cons _ _ (sq_ne_nil k),
                if_neg (sq_not_prefix_st_append k i a (rSent rest2))]
            rw [hstep, ih _ hlen1, hrw]
            rfl
          | ch b =>
            by_cases hab : [a, b] = sq k
            · have hrw : tokRepl k (.ch a :: .ch b :: rest2) = .esc k :: tokRepl k rest2 := by
                rw [show tokRepl k (.ch a :: .ch b :: rest2)
                    = if [a, b] = sq k then .esc k :: tokRepl k rest2
                      else .ch a :: tokRepl k (.ch b :: rest2) from rfl, if_pos hab]
              have hpre : sq k <+: (a :: b :: rSent rest2) := by
                rw [← hab]
                exact ⟨rSent rest2, rfl⟩
              rw [rSent_ch, rSent_ch, replaceAll_cons _ _ (sq_ne_nil k), if_pos hpre, hrw,
                rSent_esc]
              congr 1
              have hdrop : (a :: b :: rSent rest2).drop (sq k).length = rSent rest2 := by
                rw [show (sq k).length = 2 from by rw [← hab]; rfl]
                rfl
              rw [hdrop, ih rest2 hlen2]
            · have hrw : tokRepl k (.ch a :: .ch b :: rest2)
                  = .ch a :: tokRepl k (.ch b :: rest2) := by
                rw [show tokRepl k (.ch a :: .ch b :: rest2)
                    = if [a, b] = sq k then .esc k :: tokRepl k rest2
                      else .ch a :: tokRepl k (.ch b :: rest2) from rfl, if_neg hab]
              have hne : ¬sq k <+: (a :: b :: rSent rest2) := by
                intro hcon
                rw [sq_eq, List.cons_prefix_cons, List.cons_prefix_cons] at hcon
                apply hab
                rw [sq_eq, hcon.1, hcon.2.1]
              rw [rSent_ch, rSent_ch, replaceAll_cons _ _ (sq_ne_nil k), if_neg hne, hrw,
                rSent_ch]
              rw [← rSent_ch b rest2, ih _ hlen1]

theorem replaceAll_left (pat rep b : List Char) (hp : pat ≠ []) :
    replaceAll pat rep (pat ++ b) = rep ++ replaceAll pat rep b := by
  cases pat with
  | nil => exact absurd rfl hp
  | cons p ps =>
    rw [List.cons_append, replaceAll_cons _ _ hp]
    have hpre : (p :: ps) <+: p :: (ps ++ b) := by
      rw [← List.cons_append]
      exact List.prefix_append _ _
    rw [if_pos hpre]
    congr 1
    rw [← List.cons_append, List.drop_left]

/-- The next tokens are plain characters spelling the word `w`. -/
def spell : List Char → List ETok → Prop
  | [], _ => True
  | c :: w, .ch c' :: ts => c = c' ∧ spell w ts
  | _ :: _, _ => False

theorem st_ne_nil (k : Fin 5) : st k ≠ [] := by revert k; decide

theorem spell_of_prefix :
    ∀ w : List Char, (∀ c ∈ w, c ≠ '<') → ∀ ts : List ETok, w <+: rSent ts → spell w ts := by
  intro w
  induction w with
  | nil => intro _ ts _; trivial
  | cons c w ih =>
    intro hw ts hpre
    cases ts with
    | nil =>
      rw [rSent_nil, List.prefix_nil] at hpre
      exact absurd hpre (by simp)
    | cons t rest =>
      cases t with
      | ch c' =>
        rw [rSent_ch, List.cons_prefix_cons] at hpre
        exact ⟨hpre.1, ih (fun d hd => hw d (List.mem_cons_of_mem c hd)) rest hpre.2⟩
      | esc i =>
        rw [rSent_esc, st_head_tail i, List.cons_append, List.cons_prefix_cons] at hpre
        exact absurd hpre.1 (hw c (List.mem_cons_self c w))

theorem st_prefix_spell (k : Fin 5) (c : Char) (ts : List ETok)
    (h : st k <+: rSent (.ch c :: ts)) : spell (st k) (.ch c :: ts) := by
  rw [st_head_tail k] at h ⊢
  rw [rSent_ch, List.cons_prefix_cons] at h
  exact ⟨h.1, spell_of_prefix _ (st_tail_no_lt k) ts h.2⟩

/-- The unguarding pass for escape `k` acts on a rendered token string exactly
as `tokUnrepl k` acts on the tokens, provided no plain-character run spells
sentinel `k`. -/
theorem unguard_pass (k : Fin 5) :
    ∀ n, ∀ ts : List ETok, ts.length ≤ n →
      (∀ ts', ts' <:+ ts → ¬spell (st k) ts') →
      replaceAll (st k) (sq k) (rSent ts) = rSent (tokUnrepl k ts) := by
  intro n
  induction n with
  | zero =>
    intro ts h _
    have hnil : ts = [] := List.eq_nil_of_length_eq_zero (Nat.le_zero.mp h)
    subst hnil
    simp [tokUnrepl]
  | succ n ih =>
    intro ts hlen hsp
    cases ts with
    | nil => simp [tokUnrepl]
    | cons t rest =>
      have hlen' : rest.length ≤ n := by
        simp only [List.length_cons] at hlen
        omega
      have hsp' : ∀ ts', ts' <:+ rest → ¬spell (st k) ts' :=
        fun ts' hs => hsp ts' (hs.trans (List.suffix_cons t rest))
      cases t with
      | ch c =>
        have hns : ¬st k <+: c :: rSent rest := by
          intro hcon
          exact hsp _ (List.suffix_refl _) (st_prefix_spell k c rest hcon)
        rw [rSent_ch, replaceAll_cons _ _ (st_ne_nil k), if_neg hns,
          show tokUnrepl k (.ch c :: rest) = .ch c :: tokUnrepl k rest from rfl,
          rSent_ch, ih rest hlen' hsp']
      | esc j =>
        by_cases hj : j = k
        · subst hj
          rw [rSent_esc, replaceAll_left _ _ _ (st_ne_nil j),
            show tokUnrepl j (.esc j :: rest)
              = .ch '\\' :: .ch (sqc j) :: tokUnrepl j rest from by simp [tokUnrepl],
            rSent_ch, rSent_ch, ← ih rest hlen' hsp', sq_eq j]
          rfl
        · rw [rSent_esc,
            replaceAll_skip (st k) (sq k) (st_ne_nil k) (rSent rest) (st j)
              (st_tails_vs_st j k hj),
            show tokUnrepl k (.esc j :: rest) = .esc j :: tokUnrepl k rest from by
              simp [tokUnrepl, hj],
            rSent_esc, ih rest hlen' hsp']

theorem rSeq_append : ∀ l1 l2 : List ETok, rSeq (l1 ++ l2) = rSeq l1 ++ rSeq l2 := by
  intro l1 l2
  induction l1 with
  | nil => simp
  | cons t rest ih => cases t <;> simp [ih]

/-- `tokRepl` preserves the abstract rendering. -/
theorem tokRepl_rSeq (k : Fin 5) :
    ∀ n, ∀ ts : List ETok, ts.length ≤ n → rSeq (tokRepl k ts) = rSeq ts := by
  intro n
  induction n with
  | zero =>
    intro ts h
    have hnil : ts = [] := List.eq_nil_of_length_eq_zero (Nat.le_zero.mp h)
    subst hnil
    simp [tokRepl]
  | succ n ih =>
    intro ts hlen
    cases ts with
    | nil => simp [tokRepl]
    | cons t rest =>
      cases t with
      | esc i =>
        rw [show tokRepl k (.esc i :: rest) = .esc i :: tokRepl k rest from rfl,
          rSeq_esc, rSeq_esc, ih rest (by simp only [List.length_cons] at hlen; omega)]
      | ch a =>
        cases rest with
        | nil => simp [tokRepl]
        | cons t2 rest2 =>
          have hlen2 : rest2.length ≤ n := by
            simp only [List.length_cons] at hlen
            omega
          have hlen1 : (t2 :: rest2).length ≤ n := by
            simp only [List.length_cons] at hlen ⊢
            omega
          cases t2 with
          | esc i =>
            rw [show tokRepl k (.ch a :: .esc i :: rest2)
                = .ch a :: .esc i :: tokRepl k rest2 from rfl]
            rw [rSeq_ch, rSeq_esc, rSeq_ch, rSeq_esc, ih rest2 hlen2]
          | ch b =>
            by_cases hab : [a, b] = sq k
            · rw [show tokRepl k (.ch a :: .ch b :: rest2)
                  = if [a, b] = sq k then .esc k :: tokRepl k rest2
                    else .ch a :: tokRepl k (.ch b :: rest2) from rfl, if_pos hab]
              rw [rSeq_esc, rSeq_ch, rSeq_ch, ih rest2 hlen2, ← hab]
              rfl
            · rw [show tokRepl k (.ch a :: .ch b :: rest2)
                  = if [a, b] = sq k then .esc k :: tokRepl k rest2
                    else .ch a :: tokRepl k (.ch b :: rest2) from rfl, if_neg hab]
              simp only [rSeq_ch]
              rw [ih _ hlen1]
              simp only [rSeq_ch]

/-- `tokUnrepl` preserves the abstract rendering. -/
theorem tokUnrepl_rSeq (k : Fin 5) : ∀ ts : List ETok, rSeq (tokUnrepl k ts) = rSeq ts := by
  intro ts
  induction ts with
  | nil => simp [tokUnrepl]
  | cons t rest ih =>
    cases t with
    | ch c =>
      rw [show tokUnrepl k (.ch c :: rest) = .ch c :: tokUnrepl k rest from rfl,
        rSeq_ch, rSeq_ch, ih]
    | esc j =>
      by_cases hj : j = k
      · subst hj
        rw [show tokUnrepl j (.esc j :: rest)
            = .ch '\\' :: .ch (sqc j) :: tokUnrepl j rest from by simp [tokUnrepl]]
        rw [rSeq_ch, rSeq_ch, rSeq_esc, ih, sq_eq j]
        rfl
      · rw [show tokUnrepl k (.esc j :: rest) = .esc j :: tokUnrepl k rest from by
          simp [tokUnrepl, hj], rSeq_esc, rSeq_esc, ih]

/-- No token of `ts` is the sentinel token `k`. -/
def escAbsent (k : Fin 5) (ts : List ETok) : Prop := ∀ t ∈ ts, t ≠ ETok.esc k

theorem escAbsent_tokUnrepl (j k : Fin 5) (ts : List ETok)
    (h : j = k ∨ escAbsent j ts) : escAbsent j (tokUnrepl k ts) := by
  induction ts with
  | nil => intro t ht; simp [tokUnrepl] at ht
  | cons t rest ih =>
    have hrest : j = k ∨ escAbsent j rest := by
      rcases h with h | h
      · exact Or.inl h
      · exact Or.inr (fun x hx => h x (List.mem_cons_of_mem t hx))
    cases t with
    | ch c =>
      intro x hx
      rw [show tokUnrepl k (.ch c :: rest) = .ch c :: tokUnrepl k rest from rfl] at hx
      rcases List.mem_cons.mp hx with hx | hx
      · subst hx; simp
      · exact ih hrest x hx
    | esc i =>
      by_cases hi : i = k
      · subst hi
        intro x hx
        rw [show tokUnrepl i (.esc i :: rest)
            = .ch '\\' :: .ch (sqc i) :: tokUnrepl i rest from by simp [tokUnrepl]] at hx
        rcases List.mem_cons.mp hx with hx | hx
        · subst hx; simp
        rcases List.mem_cons.mp hx with hx | hx
        · subst hx; simp
        · exact ih hrest x hx
      · intro x hx
        rw [show tokUnrepl k (.esc i :: rest) = .esc i :: tokUnrepl k rest from by
          simp [tokUnrepl, hi]] at hx
        rcases List.mem_cons.mp hx with hx | hx
        · subst hx
          intro hcon
          rcases h with h | h
          · exact hi ((ETok.esc.injEq i j).mp hcon ▸ h)
          · exact h (.esc i) (List.mem_cons_self _ _) hcon
        · exact ih hrest x hx

theorem rSent_eq_rSeq_of_escAbsent (ts : List ETok)
    (h : ∀ j : Fin 5, escAbsent j ts) : rSent ts = rSeq ts := by
  induction ts with
  | nil => rfl
  | cons t rest ih =>
    cases t with
    | ch c =>
      rw [rSent_ch, rSeq_ch, ih]
      intro j x hx
      exact h j x (List.mem_cons_of_mem _ hx)
    | esc i => exact absurd rfl (h i (.esc i) (List.mem_cons_self _ _))

theorem spell_prefix_rSeq : ∀ w : List Char, ∀ ts : List ETok, spell w ts → w <+: rSeq ts := by
  intro w
  induction w with
  | nil => intro ts _; exact List.nil_prefix
  | cons c w ih =>
    intro ts hsp
    cases ts with
    | nil => exact absurd hsp (by simp [spell])
    | cons t rest =>
      cases t with
      | ch c' =>
        have hsp' : c = c' ∧ spell w rest := hsp
        rw [rSeq_ch, List.cons_prefix_cons]
        exact ⟨hsp'.1, ih rest hsp'.2⟩
      | esc i => exact absurd hsp (by simp [spell])

theorem rSeq_suffix (ts' ts : List ETok) (h : ts' <:+ ts) : rSeq ts' <:+ rSeq ts := by
  obtain ⟨pre, hpre⟩ := h
  exact ⟨rSeq pre, by rw [← rSeq_append, hpre]⟩

theorem no_spell_of_free (k : Fin 5) (ts : List ETok) (hfree : ¬st k <:+: rSeq ts) :
    ∀ ts', ts' <:+ ts → ¬spell (st k) ts' := by
  intro ts' hs hsp
  apply hfree
  rw [List.infix_iff_prefix_suffix]
  exact ⟨rSeq ts', spell_prefix_rSeq _ _ hsp, rSeq_suffix ts' ts hs⟩

theorem rSent_map_ch (t : List Char) : rSent (t.map ETok.ch) = t := by
  induction t with
  | nil => rfl
  | cons c rest ih => simp [ih]

theorem rSeq_map_ch (t : List Char) : rSeq (t.map ETok.ch) = t := by
  induction t with
  | nil => rfl
  | cons c rest ih => simp [ih]

/-- The five guarding passes, at the token level. -/
def guardToks (ts : List ETok) : List ETok :=
  tokRepl 4 (tokRepl 3 (tokRepl 2 (tokRepl 1 (tokRepl 0 ts))))

/-- The five unguarding passes, at the token level. -/
def unguardToks (ts : List ETok) : List ETok :=
  tokUnrepl 4 (tokUnrepl 3 (tokUnrepl 2 (tokUnrepl 1 (tokUnrepl 0 ts))))

theorem guardEscapes_eq (s : List Char) :
    guardEscapes s =
      replaceAll (sq 4) (st 4) (replaceAll (sq 3) (st 3) (replaceAll (sq 2) (st 2)
        (replaceAll (sq 1) (st 1) (replaceAll (sq 0) (st 0) s)))) := rfl

theorem unguardEscapes_eq (s : List Char) :
    unguardEscapes s =
      replaceAll (st 4) (sq 4) (replaceAll (st 3) (sq 3) (replaceAll (st 2) (sq 2)
        (replaceAll (st 1) (sq 1) (replaceAll (st 0) (sq 0) s)))) := rfl

theorem guardEscapes_tok (ts : List ETok) :
    guardEscapes (rSent ts) = rSent (guardToks ts) := by
  rw [guardEscapes_eq, guard_pass 0 _ ts (Nat.le_refl _), guard_pass 1 _ _ (Nat.le_refl _),
    guard_pass 2 _ _ (Nat.le_refl _), guard_pass 3 _ _ (Nat.le_refl _),
    guard_pass 4 _ _ (Nat.le_refl _)]
  rfl

theorem guardToks_rSeq (ts : List ETok) : rSeq (guardToks ts) = rSeq ts := by
  unfold guardToks
  rw [tokRepl_rSeq 4 _ _ (Nat.le_refl _), tokRepl_rSeq 3 _ _ (Nat.le_refl _),
    tokRepl_rSeq 2 _ _ (Nat.le_refl _), tokRepl_rSeq 1 _ _ (Nat.le_refl _),
    tokRepl_rSeq 0 _ _ (Nat.le_refl _)]

theorem unguardEscapes_tok (ts : List ETok) (hfree : ∀ k : Fin 5, ¬st k <:+: rSeq ts) :
    unguardEscapes (rSent ts) = rSent (unguardToks ts) := by
  have hq0 : rSeq (tokUnrepl 0 ts) = rSeq ts := tokUnrepl_rSeq 0 ts
  have hq1 : rSeq (tokUnrepl 1 (tokUnrepl 0 ts)) = rSeq ts := by
    rw [tokUnrepl_rSeq, hq0]
  have hq2 : rSeq (tokUnrepl 2 (tokUnrepl 1 (tokUnrepl 0 ts))) = rSeq ts := by
    rw [tokUnrepl_rSeq, hq1]
  have hq3 : rSeq (tokUnrepl 3 (tokUnrepl 2 (tokUnrepl 1 (tokUnrepl 0 ts)))) = rSeq ts := by
    rw [tokUnrepl_rSeq, hq2]
  rw [unguardEscapes_eq,
    unguard_pass 0 _ ts (Nat.le_refl _) (no_spell_of_free 0 ts (hfree 0)),
    unguard_pass 1 _ _ (Nat.le_refl _) (no_spell_of_free 1 _ (by rw [hq0]; exact hfree 1)),
    unguard_pass 2 _ _ (Nat.le_refl _) (no_spell_of_free 2 _ (by rw [hq1]; exact hfree 2)),
    unguard_pass 3 _ _ (Nat.le_refl _) (no_spell_of_free 3 _ (by rw [hq2]; exact hfree 3)),
    unguard_pass 4 _ _ (Nat.le_refl _) (no_spell_of_free 4 _ (by rw [hq3]; exact hfree 4))]
  rfl

theorem unguardToks_escAbsent (ts : List ETok) (j : Fin 5) :
    escAbsent j (unguardToks ts) := by
  unfold unguardToks
  fin_cases j
  · apply escAbsent_tokUnrepl _ _ _ (Or.inr (escAbsent_tokUnrepl _ _ _ (Or.inr
      (escAbsent_tokUnrepl _ _ _ (Or.inr (escAbsent_tokUnrepl _ _ _ (Or.inr
        (escAbsent_tokUnrepl _ _ _ (Or.inl rfl)))))))))
  · apply escAbsent_tokUnrepl _ _ _ (Or.inr (escAbsent_tokUnrepl _ _ _ (Or.inr
      (escAbsent_tokUnrepl _ _ _ (Or.inr (escAbsent_tokUnrepl _ _ _ (Or.inl rfl)))))))
  · apply escAbsent_tokUnrepl _ _ _ (Or.inr (escAbsent_tokUnrepl _ _ _ (Or.inr
      (escAbsent_tokUnrepl _ _ _ (Or.inl rfl)))))
  · apply escAbsent_tokUnrepl _ _ _ (Or.inr (escAbsent_tokUnrepl _ _ _ (Or.inl rfl)))
  · apply escAbsent_tokUnrepl _ _ _ (Or.inl rfl)

/-- Escape guard/unguard round trip: for any text that does not contain one of
the five sentinel strings as a substring, unguarding after guarding restores
the text exactly. -/
theorem escape_roundtrip (t : List Char) (hfree : ∀ k : Fin 5, ¬st k <:+: t) :
    unguardEscapes (guardEscapes t) = t := by
  have h0s : rSent (t.map ETok.ch) = t := rSent_map_ch t
  have h0q : rSeq (t.map ETok.ch) = t := rSeq_map_ch t
  have hg : guardEscapes t = rSent (guardToks (t.map ETok.ch)) := by
    conv_lhs => rw [← h0s]
    exact guardEscapes_tok _
  have hgq : rSeq (guardToks (t.map ETok.ch)) = t := by
    rw [guardToks_rSeq, h0q]
  have hu : unguardEscapes (guardEscapes t)
      = rSent (unguardToks (guardToks (t.map ETok.ch))) := by
    rw [hg]
    exact unguardEscapes_tok (guardToks (t.map ETok.ch))
      (fun k => by rw [hgq]; exact hfree k)
  rw [hu, rSent_eq_rSeq_of_escAbsent _ (unguardToks_escAbsent _)]
  unfold unguardToks
  rw [tokUnrepl_rSeq, tokUnrepl_rSeq, tokUnrepl_rSeq, tokUnrepl_rSeq, tokUnrepl_rSeq, hgq]

/-- **C4** counterexample: as universally stated the escape round trip fails.
The input below contains the guarded escape sequence `\n`, yet unguarding the
guarded text does not restore it: the literal sentinel text `<!TAB!>` already
present in the input is misinterpreted and rewritten into `\t`. -/
theorem C4_cex :
    unguardEscapes (guardEscapes "\\n<!TAB!>".toList) ≠ "\\n<!TAB!>".toList := by
  decide

/-- **C4** (amended): for every text that contains none of the five sentinel
strings as a substring — in particular every ordinary text containing the five
guarded escape sequences — guarding the escapes and then unguarding restores
the original text: `unguard(guard(text)) = text`, with no double-unescaping of
a literal backslash. -/
theorem C4_escape_roundtrip (t : List Char) (hfree : ∀ k : Fin 5, ¬st k <:+: t) :
    unguardEscapes (guardEscapes t) = t :=
  escape_roundtrip t hfree

/-- **C4** witness: the round trip at a concrete input containing all five
escape sequences. -/
theorem C4_escape_roundtrip_witness :
    unguardEscapes (guardEscapes "a\\nb\\tc\\\"d\\\\e\\rf".toList)
      = "a\\nb\\tc\\\"d\\\\e\\rf".toList :=
  C4_escape_roundtrip ("a\\nb\\tc\\\"d\\\\e\\rf".toList) (by decide)

/-! ### Markup scanner (`scan_markup`) and token protector (`protect_text`) -/

/-- Maximal run of characters containing neither delimiter — the greedy
`[^{}]+`-style group of the scanning regexes. -/
def takeInner (op cl : Char) (s : List Char) : List Char :=
  s.takeWhile (fun c => c ≠ op && c ≠ cl)

/-- The remainder after `takeInner`. -/
def dropInner (op cl : Char) (s : List Char) : List Char :=
  s.dropWhile (fun c => c ≠ op && c ≠ cl)

/-- A single-level delimiter match starts at this position: an opening
delimiter, a nonempty delimiter-free inner group, and the closing delimiter. -/
def spanAt (op cl : Char) (c : Char) (rest : List Char) : Prop :=
  c = op ∧ takeInner op cl rest ≠ [] ∧ (dropInner op cl rest).head? = some cl

instance (op cl c : Char) (rest : List Char) : Decidable (spanAt op cl c rest) := by
  unfold spanAt
  infer_instance

/-- Fuel-driven worker for `protectCat`. -/
def protectCatF (op cl : Char) (f : List Char → List Char) :
    Nat → List Char → List Char
  | 0, s => s
  | _ + 1, [] => []
  | fuel + 1, c :: rest =>
    if spanAt op cl c rest then
      op :: f (takeInner op cl rest) ++ cl :: protectCatF op cl f fuel ((dropInner op cl rest).tail)
    else
      c :: protectCatF op cl f fuel rest

/-- `re.sub(delim + group + delim, repl, s)` for one non-nesting delimiter
category: scan left to right; at each opening delimiter with a nonempty
delimiter-free inner group closed by the matching delimiter, rewrite the inner
group through `f` and continue after the span; otherwise advance one
character. -/
def protectCat (op cl : Char) (f : List Char → List Char) (s : List Char) : List Char :=
  protectCatF op cl f s.length s

/-- Fuel-driven worker for `findAllCat`. -/
def findAllCatF (op cl : Char) : Nat → List Char → List (List Char)
  | 0, _ => []
  | _ + 1, [] => []
  | fuel + 1, c :: rest =>
    if spanAt op cl c rest then
      takeInner op cl rest :: findAllCatF op cl fuel ((dropInner op cl rest).tail)
    else
      findAllCatF op cl fuel rest

/-- `re.findall(delim + group + delim, s)`: the inner groups of all
non-overlapping matches, in match order. -/
def findAllCat (op cl : Char) (s : List Char) : List (List Char) :=
  findAllCatF op cl s.length s

/-- First-occurrence deduplication with an accumulator of already-seen
elements. -/
def pyDedupAux (seen : List (List Char)) : List (List Char) → List (List Char)
  | [] => []
  | x :: rest =>
    if x ∈ seen then pyDedupAux seen rest else x :: pyDedupAux (x :: seen) rest

/-- The distinct elements of a list in first-occurrence order: one possible
iteration order of the Python `set(...)` built from the list. -/
def pyDedup (l : List (List Char)) : List (List Char) := pyDedupAux [] l

/-- Python `match.replace('.', '').replace(',', '').isdigit()` from
`scan_markup` (Translate.py line 91): drop every `.` and `,`, then test that
the remainder is nonempty and all (ASCII) digits. -/
def isNumericStripped (m : List Char) : Bool :=
  let s := m.filter (fun c => c ≠ '.' && c ≠ ',')
  !s.isEmpty && s.all (·.isDigit)

/-- `str(n)` for the id counters. -/
def natToChars (n : Nat) : List Char := (Nat.repr n).toList

/-- The id-assignment loop body of `scan_markup` (Translate.py lines 88-97):
walk the iterated set elements, skipping numeric content when the category is
the emotion one, skipping already-present keys, and otherwise appending the
entry with the current counter value and advancing the counter. -/
def scanCatGo (skipNum : Bool) :
    Nat → List (List Char × List Char) → List (List Char) → List (List Char × List Char)
  | _, acc, [] => acc
  | n, acc, m :: rest =>
    if skipNum && isNumericStripped m then scanCatGo skipNum n acc rest
    else if (acc.lookup m).isSome then scanCatGo skipNum n acc rest
    else scanCatGo skipNum (n + 1) (acc ++ [(m, natToChars n)]) rest

/-- One category of `scan_markup`: counter reset to 1, map cleared, then the
assignment loop over the iterated set elements. -/
def scanCat (skipNum : Bool) (ms : List (List Char)) : List (List Char × List Char) :=
  scanCatGo skipNum 1 [] ms

/-- The four token maps built by `scan_markup`. -/
structure TokenMaps where
  tag_map : List (List Char × List Char)
  var_map : List (List Char × List Char)
  emotion_map : List (List Char × List Char)
  bracket_map : List (List Char × List Char)
deriving DecidableEq

/-- `scan_markup` (Translate.py lines 66-97).  `setOrder` is the iteration
order of the Python `set(re.findall(...))`: sets iterate in hash-table order,
so the order is an arbitrary (per-process) enumeration of the distinct
matches; it is passed as a parameter, constrained in theorems to be a
permutation of the distinct matches. -/
def scan_markup (setOrder : List (List Char) → List (List Char))
    (content : List Char) : TokenMaps where
  tag_map := scanCat false (setOrder (findAllCat '{' '}' content))
  var_map := scanCat false (setOrder (findAllCat '[' ']' content))
  emotion_map := scanCat true (setOrder (findAllCat '(' ')' content))
  bracket_map := scanCat false (setOrder (findAllCat '<' '>' content))

/-- `map.get(key, default)`. -/
def lookupD (mp : List (List Char × List Char)) (key dflt : List Char) : List Char :=
  (mp.lookup key).getD dflt

/-- Opening delimiter of category `c` (0 = tag `{}`, 1 = variable `[]`,
2 = emotion `()`, 3 = bracket `<>`), in the order of the `replacements`
list of `protect_text`. -/
def opc : Fin 4 → Char := fun c => ['{', '[', '(', '<'].get (Fin.cast (by rfl) c)

/-- Closing delimiter of category `c`. -/
def clc : Fin 4 → Char := fun c => ['}', ']', ')', '>'].get (Fin.cast (by rfl) c)

/-- The map of category `c`. -/
def catMap (mp : TokenMaps) : Fin 4 → List (List Char × List Char) :=
  fun c => [mp.tag_map, mp.var_map, mp.emotion_map, mp.bracket_map].get (Fin.cast (by rfl) c)

/-- The four replacement lambdas of `protect_text` (Translate.py lines
104-109): tag, variable and bracket content falls back to `?` when unmapped;
emotion content falls back to itself. -/
def protFun (mp : TokenMaps) : Fin 4 → (List Char → List Char)
  | 0 => fun inner => lookupD mp.tag_map inner ['?']
  | 1 => fun inner => lookupD mp.var_map inner ['?']
  | 2 => fun inner => lookupD mp.emotion_map inner inner
  | 3 => fun inner => lookupD mp.bracket_map inner ['?']

/-- `protect_text` (Translate.py lines 99-126): the four category passes in
order tag, variable, emotion, bracket, then the escape-guarding loop. -/
def protect_text (mp : TokenMaps) (s : List Char) : List Char :=
  guardEscapes
    (protectCat (opc 3) (clc 3) (protFun mp 3)
      (protectCat (opc 2) (clc 2) (protFun mp 2)
        (protectCat (opc 1) (clc 1) (protFun mp 1)
          (protectCat (opc 0) (clc 0) (protFun mp 0) s))))

/-- Reverse lookup by mapped value: the key of the first entry whose value is
`v`. -/
def revLookup (mp : List (List Char × List Char)) (v : List Char) : Option (List Char) :=
  (mp.find? (fun pr => pr.2 == v)).map (·.1)

/-- Modelled from the spec: the repository contains no token-restoration code —
spec §4.2 specifies only that "Restoration (performed by the caller on
transformed output) is the inverse: replace placeholder id back with original
content using the same maps".  We model one category pass as the same
single-level delimiter rewrite as protection, replacing a delimiter-wrapped
placeholder by the content mapped to that id and leaving the span unchanged
when the id is unmapped. -/
def restFun (mp : TokenMaps) (c : Fin 4) : List Char → List Char :=
  fun inner => (revLookup (catMap mp c) inner).getD inner

/-- Modelled from the spec (§4.2 restoration, performed by the caller): undo
the escape guard the way `translate_text` does on transform output
(Translate.py lines 161-171), then replace each delimiter-wrapped placeholder
id back by its original content, category by category. -/
def restore_text (mp : TokenMaps) (s : List Char) : List Char :=
  protectCat (opc 3) (clc 3) (restFun mp 3)
    (protectCat (opc 2) (clc 2) (restFun mp 2)
      (protectCat (opc 1) (clc 1) (restFun mp 1)
        (protectCat (opc 0) (clc 0) (restFun mp 0) (unguardEscapes s))))

example :
    scan_markup pyDedup "Press \x7bStart\x7d".toList
      = { tag_map := [("Start".toList, "1".toList)], var_map := [],
          emotion_map := [], bracket_map := [] } := by decide

example :
    protect_text (scan_markup pyDedup "Press \x7bStart\x7d".toList)
      "Press \x7bStart\x7d".toList = "Press \x7b1\x7d".toList := by decide

example :
    restore_text (scan_markup pyDedup "Press \x7bStart\x7d".toList)
      "Press \x7b1\x7d".toList = "Press \x7bStart\x7d".toList := by decide

/-! ### Token protection round trip -/

theorem protectCatF_fuel (op cl : Char) (f : List Char → List Char) :
    ∀ fuel fuel' s, s.length ≤ fuel → s.length ≤ fuel' →
      protectCatF op cl f fuel s = protectCatF op cl f fuel' s := by
  intro fuel
  induction fuel with
  | zero =>
    intro fuel' s hf _
    have hnil : s = [] := List.eq_nil_of_length_eq_zero (Nat.le_zero.mp hf)
    subst hnil
    cases fuel' <;> rfl
  | succ fuel ih =>
    intro fuel' s hf hf'
    match s, fuel' with
    | [], fuel' => cases fuel' <;> rfl
    | c :: rest, 0 => exact absurd hf' (by simp)
    | c :: rest, fuel'' + 1 =>
      simp only [protectCatF]
      have hdrop : ((dropInner op cl rest).tail).length ≤ rest.length := by
        have h1 : (dropInner op cl rest).length ≤ rest.length :=
          (List.dropWhile_suffix _).length_le
        have h2 : ((dropInner op cl rest).tail).length ≤ (dropInner op cl rest).length := by
          cases dropInner op cl rest <;> simp
        omega
      have hf1 : rest.length ≤ fuel := by simp only [List.length_cons] at hf; omega
      have hf2 : rest.length ≤ fuel'' := by simp only [List.length_cons] at hf'; omega
      by_cases hsp : spanAt op cl c rest
      · rw [if_pos hsp, if_pos hsp,
          ih fuel'' _ (Nat.le_trans hdrop hf1) (Nat.le_trans hdrop hf2)]
      · rw [if_neg hsp, if_neg hsp, ih fuel'' rest hf1 hf2]

@[simp] theorem protectCat_nil (op cl : Char) (f : List Char → List Char) :
    protectCat op cl f [] = [] := rfl

theorem protectCat_cons (op cl : Char) (f : List Char → List Char)
    (c : Char) (rest : List Char) :
    protectCat op cl f (c :: rest) =
      if spanAt op cl c rest then
        op :: f (takeInner op cl rest) ++ cl :: protectCat op cl f ((dropInner op cl rest).tail)
      else
        c :: protectCat op cl f rest := by
  have hdrop : ((dropInner op cl rest).tail).length ≤ rest.length := by
    have h1 : (dropInner op cl rest).length ≤ rest.length :=
      (List.dropWhile_suffix _).length_le
    have h2 : ((dropInner op cl rest).tail).length ≤ (dropInner op cl rest).length := by
      cases dropInner op cl rest <;> simp
    omega
  show protectCatF op cl f (rest.length + 1) (c :: rest) = _
  simp only [protectCatF]
  by_cases hsp : spanAt op cl c rest
  · rw [if_pos hsp, if_pos hsp]
    have := protectCatF_fuel op cl f rest.length ((dropInner op cl rest).tail).length
      ((dropInner op cl rest).tail) hdrop (Nat.le_refl _)
    rw [this]
    rfl
  · rw [if_neg hsp, if_neg hsp]
    have := protectCatF_fuel op cl f rest.length rest.length rest (Nat.le_refl _) (Nat.le_refl _)
    rfl

/-- Splitting at the first delimiter of a block that starts with a
delimiter-free run followed by a delimiter. -/
theorem inner_decomp (op cl : Char) (a : List Char) (x : Char) (b : List Char)
    (ha : ∀ c ∈ a, c ≠ op ∧ c ≠ cl) (hx : x = op ∨ x = cl) :
    takeInner op cl (a ++ x :: b) = a ∧ dropInner op cl (a ++ x :: b) = x :: b := by
  have hpa : ∀ c ∈ a, (fun c => c ≠ op && c ≠ cl) c = true := by
    intro c hc
    have := ha c hc
    simp [this.1, this.2]
  constructor
  · unfold takeInner
    rw [List.takeWhile_append_of_pos hpa, List.takeWhile_cons]
    rcases hx with hx | hx <;> subst hx <;> simp
  · unfold dropInner
    rw [List.dropWhile_append_of_pos hpa, List.dropWhile_cons]
    rcases hx with hx | hx <;> subst hx <;> simp

/-- `protectCat` passes over a block in which no span can start. -/
theorem protectCat_skip (op cl : Char) (f : List Char → List Char) (b : List Char) :
    ∀ a : List Char, (∀ ch ∈ a, ch ≠ op) →
      protectCat op cl f (a ++ b) = a ++ protectCat op cl f b := by
  intro a
  induction a with
  | nil => simp
  | cons c a ih =>
    intro h
    rw [List.cons_append, protectCat_cons]
    have hno : ¬spanAt op cl c (a ++ b) := by
      intro hsp
      exact h c (List.mem_cons_self _ _) hsp.1
    rw [if_neg hno, ih (fun ch hch => h ch (List.mem_cons_of_mem _ hch))]
    rfl

/-- `protectCat` rewrites a well-formed span at the head of the string. -/
theorem protectCat_span (op cl : Char) (f : List Char → List Char)
    (inner b : List Char) (hin : inner ≠ [])
    (hfree : ∀ ch ∈ inner, ch ≠ op ∧ ch ≠ cl) :
    protectCat op cl f (op :: (inner ++ cl :: b)) =
      op :: f inner ++ cl :: protectCat op cl f b := by
  obtain ⟨htk, hdr⟩ := inner_decomp op cl inner cl b hfree (Or.inr rfl)
  have hsp : spanAt op cl op (inner ++ cl :: b) := by
    refine ⟨rfl, ?_, ?_⟩
    · rw [htk]; exact hin
    · rw [hdr]; rfl
  rw [protectCat_cons, if_pos hsp, htk, hdr]
  rfl

/-- A decomposition of the text the protector runs on: plain runs interleaved
with single markup tokens. -/
inductive Seg
  | plain (s : List Char)
  | tok (cat : Fin 4) (content : List Char)
deriving DecidableEq

def renderSeg : Seg → List Char
  | .plain s => s
  | .tok c content => opc c :: (content ++ [clc c])

def render : List Seg → List Char
  | [] => []
  | sg :: rest => renderSeg sg ++ render rest

/-- No delimiter character of any of the four categories occurs. -/
def delimFree (s : List Char) : Prop :=
  ∀ ch ∈ s, ∀ c : Fin 4, ch ≠ opc c ∧ ch ≠ clc c

instance (s : List Char) : Decidable (delimFree s) := by
  unfold delimFree
  infer_instance

/-- The placeholder id that protection substitutes for `content` in
category `c`. -/
def idOfC (mp : TokenMaps) (c : Fin 4) (content : List Char) : List Char :=
  lookupD (catMap mp c) content ['?']

/-- The segment is delimiter-clean and (for tokens) mapped in its category. -/
def GoodSeg (mp : TokenMaps) : Seg → Prop
  | .plain s => delimFree s
  | .tok c content => content ≠ [] ∧ delimFree content ∧ ((catMap mp c).lookup content).isSome

instance (mp : TokenMaps) (sg : Seg) : Decidable (GoodSeg mp sg) := by
  cases sg <;> (unfold GoodSeg; infer_instance)

/-- Every map entry has a nonempty all-digit id, and reverse lookup of that id
finds the entry back (ids are unique within the category), as `scan_markup`
produces. -/
def GoodMaps (mp : TokenMaps) : Prop :=
  ∀ c : Fin 4, ∀ pr ∈ catMap mp c,
    pr.2 ≠ [] ∧ (∀ ch ∈ pr.2, ch.isDigit = true) ∧ revLookup (catMap mp c) pr.2 = some pr.1

instance (mp : TokenMaps) : Decidable (GoodMaps mp) := by
  unfold GoodMaps
  infer_instance

/-- Rendering after the protection passes for the categories below `k`:
tokens of those categories carry their placeholder id, the others still their
content. -/
def renderSegK (mp : TokenMaps) (k : Nat) : Seg → List Char
  | .plain s => s
  | .tok c content =>
    if c.val < k then opc c :: (idOfC mp c content ++ [clc c])
    else opc c :: (content ++ [clc c])

def renderK (mp : TokenMaps) (k : Nat) : List Seg → List Char
  | [] => []
  | sg :: rest => renderSegK mp k sg ++ renderK mp k rest

theorem renderK_zero (mp : TokenMaps) :
    ∀ segs, renderK mp 0 segs = render segs := by
  intro segs
  induction segs with
  | nil => rfl
  | cons sg rest ih =>
    cases sg with
    | plain s => simp [renderK, render, renderSegK, renderSeg, ih]
    | tok c content => simp [renderK, render, renderSegK, renderSeg, ih]

theorem opc_inj : ∀ c k : Fin 4, c ≠ k → opc c ≠ opc k := by decide

theorem clc_ne_opc : ∀ c k : Fin 4, clc c ≠ opc k := by decide

theorem digit_not_delim (ch : Char) (h : ch.isDigit = true) (c : Fin 4) :
    ch ≠ opc c ∧ ch ≠ clc c := by
  constructor <;> intro heq <;> subst heq <;> revert h <;> fin_cases c <;> decide

theorem lookup_mem {mp : List (List Char × List Char)} {key v : List Char}
    (h : mp.lookup key = some v) : (key, v) ∈ mp := by
  rw [List.lookup_eq_some_iff] at h
  obtain ⟨l1, l2, rfl, _⟩ := h
  exact List.mem_append.mpr (Or.inr (List.mem_cons_self _ _))

theorem idOfC_spec (mp : TokenMaps) (hm : GoodMaps mp) (c : Fin 4) (content : List Char)
    (h : ((catMap mp c).lookup content).isSome) :
    (catMap mp c).lookup content = some (idOfC mp c content) ∧
      idOfC mp c content ≠ [] ∧
      (∀ ch ∈ idOfC mp c content, ch.isDigit = true) ∧
      revLookup (catMap mp c) (idOfC mp c content) = some content := by
  obtain ⟨v, hv⟩ := Option.isSome_iff_exists.mp h
  have hid : idOfC mp c content = v := by simp [idOfC, lookupD, hv]
  have hprops := hm c _ (lookup_mem hv)
  rw [hid]
  exact ⟨hv, hprops.1, hprops.2.1, hprops.2.2⟩

theorem protFun_eq (mp : TokenMaps) :
    ∀ k : Fin 4, ∀ inner, protFun mp k inner
      = lookupD (catMap mp k) inner (if k.val = 2 then inner else ['?']) := by
  intro k
  fin_cases k <;> intro inner <;> rfl

/-- One protection pass turns the tokens of its category from content form to
placeholder form and leaves everything else alone. -/
theorem protect_pass (mp : TokenMaps) (hm : GoodMaps mp) (k : Fin 4) :
    ∀ segs, (∀ sg ∈ segs, GoodSeg mp sg) →
      protectCat (opc k) (clc k) (protFun mp k) (renderK mp k.val segs)
        = renderK mp (k.val + 1) segs := by
  intro segs
  induction segs with
  | nil => intro _; rfl
  | cons sg rest ih =>
    intro hs
    have hrest := fun s hx => hs s (List.mem_cons_of_mem _ hx)
    have hsg := hs sg (List.mem_cons_self _ _)
    cases sg with
    | plain s =>
      show protectCat (opc k) (clc k) (protFun mp k) (s ++ renderK mp k.val rest)
          = s ++ renderK mp (k.val + 1) rest
      rw [protectCat_skip _ _ _ _ s (fun ch hch => ((hsg ch hch) k).1), ih hrest]
    | tok c content =>
      rcases Nat.lt_trichotomy c.val k.val with hlt | heq | hgt
      · have hne : c ≠ k := Fin.ne_of_val_ne (Nat.ne_of_lt hlt)
        have hid := idOfC_spec mp hm c content hsg.2.2
        have hK : renderSegK mp k.val (.tok c content)
            = opc c :: (idOfC mp c content ++ [clc c]) := by
          simp [renderSegK, hlt]
        have hK1 : renderSegK mp (k.val + 1) (.tok c content)
            = opc c :: (idOfC mp c content ++ [clc c]) := by
          simp [renderSegK, Nat.lt_succ_of_lt hlt]
        have hskip : ∀ ch ∈ opc c :: (idOfC mp c content ++ [clc c]), ch ≠ opc k := by
          intro ch hch
          rcases List.mem_cons.mp hch with hch | hch
          · subst hch; exact opc_inj c k hne
          · rcases List.mem_append.mp hch with hch | hch
            · exact (digit_not_delim ch (hid.2.2.1 ch hch) k).1
            · rw [List.mem_singleton.mp hch]; exact clc_ne_opc c k
        show protectCat (opc k) (clc k) (protFun mp k)
            (renderSegK mp k.val (.tok c content) ++ renderK mp k.val rest)
            = renderSegK mp (k.val + 1) (.tok c content) ++ renderK mp (k.val + 1) rest
        rw [hK, hK1, protectCat_skip _ _ _ _ _ hskip, ih hrest]
      · have hck : c = k := Fin.ext heq
        subst hck
        have hK : renderSegK mp c.val (.tok c content) = opc c :: (content ++ [clc c]) := by
          simp [renderSegK]
        have hK1 : renderSegK mp (c.val + 1) (.tok c content)
            = opc c :: (idOfC mp c content ++ [clc c]) := by
          simp [renderSegK, Nat.lt_succ_self]
        have hpf : protFun mp c content = idOfC mp c content := by
          rw [protFun_eq mp c content]
          obtain ⟨v, hv⟩ := Option.isSome_iff_exists.mp hsg.2.2
          simp [lookupD, idOfC, hv]
        show protectCat (opc c) (clc c) (protFun mp c)
            (renderSegK mp c.val (.tok c content) ++ renderK mp c.val rest)
            = renderSegK mp (c.val + 1) (.tok c content) ++ renderK mp (c.val + 1) rest
        rw [hK, hK1]
        have hassoc : (opc c :: (content ++ [clc c])) ++ renderK mp c.val rest
            = opc c :: (content ++ clc c :: renderK mp c.val rest) := by
          simp
        rw [hassoc,
          protectCat_span _ _ _ content _ hsg.1 (fun ch hch => hsg.2.1 ch hch c),
          ih hrest, hpf]
        simp
      · have hne : c ≠ k := Fin.ne_of_val_ne (Nat.ne_of_gt hgt)
        have hK : renderSegK mp k.val (.tok c content) = opc c :: (content ++ [clc c]) := by
          simp [renderSegK, show ¬c.val < k.val from by omega]
        have hK1 : renderSegK mp (k.val + 1) (.tok c content)
            = opc c :: (content ++ [clc c]) := by
          simp [renderSegK, show ¬c.val < k.val + 1 from by omega]
        have hskip : ∀ ch ∈ opc c :: (content ++ [clc c]), ch ≠ opc k := by
          intro ch hch
          rcases List.mem_cons.mp hch with hch | hch
          · subst hch; exact opc_inj c k hne
          · rcases List.mem_append.mp hch with hch | hch
            · exact (hsg.2.1 ch hch k).1
            · rw [List.mem_singleton.mp hch]; exact clc_ne_opc c k
        show protectCat (opc k) (clc k) (protFun mp k)
            (renderSegK mp k.val (.tok c content) ++ renderK mp k.val rest)
            = renderSegK mp (k.val + 1) (.tok c content) ++ renderK mp (k.val + 1) rest
        rw [hK, hK1, protectCat_skip _ _ _ _ _ hskip, ih hrest]

/-- Rendering after the restoration passes for the categories below `k`:
tokens of those categories carry their content again, the others still their
placeholder id. -/
def renderSegRK (mp : TokenMaps) (k : Nat) : Seg → List Char
  | .plain s => s
  | .tok c content =>
    if c.val < k then opc c :: (content ++ [clc c])
    else opc c :: (idOfC mp c content ++ [clc c])

def renderRK (mp : TokenMaps) (k : Nat) : List Seg → List Char
  | [] => []
  | sg :: rest => renderSegRK mp k sg ++ renderRK mp k rest

theorem renderRK_zero (mp : TokenMaps) :
    ∀ segs, renderRK mp 0 segs = renderK mp 4 segs := by
  intro segs
  induction segs with
  | nil => rfl
  | cons sg rest ih =>
    cases sg with
    | plain s => simp [renderRK, renderK, renderSegRK, renderSegK, ih]
    | tok c content => simp [renderRK, renderK, renderSegRK, renderSegK, ih, c.isLt]

theorem renderRK_four (mp : TokenMaps) :
    ∀ segs, renderRK mp 4 segs = render segs := by
  intro segs
  induction segs with
  | nil => rfl
  | cons sg rest ih =>
    cases sg with
    | plain s => simp [renderRK, render, renderSegRK, renderSeg, ih]
    | tok c content => simp [renderRK, render, renderSegRK, renderSeg, ih, c.isLt]

/-- One restoration pass turns the placeholders of its category back into
content form and leaves everything else alone. -/
theorem restore_pass (mp : TokenMaps) (hm : GoodMaps mp) (k : Fin 4) :
    ∀ segs, (∀ sg ∈ segs, GoodSeg mp sg) →
      protectCat (opc k) (clc k) (restFun mp k) (renderRK mp k.val segs)
        = renderRK mp (k.val + 1) segs := by
  intro segs
  induction segs with
  | nil => intro _; rfl
  | cons sg rest ih =>
    intro hs
    have hrest := fun s hx => hs s (List.mem_cons_of_mem _ hx)
    have hsg := hs sg (List.mem_cons_self _ _)
    cases sg with
    | plain s =>
      show protectCat (opc k) (clc k) (restFun mp k) (s ++ renderRK mp k.val rest)
          = s ++ renderRK mp (k.val + 1) rest
      rw [protectCat_skip _ _ _ _ s (fun ch hch => ((hsg ch hch) k).1), ih hrest]
    | tok c content =>
      have hid := idOfC_spec mp hm c content hsg.2.2
      rcases Nat.lt_trichotomy c.val k.val with hlt | heq | hgt
      · have hne : c ≠ k := Fin.ne_of_val_ne (Nat.ne_of_lt hlt)
        have hK : renderSegRK mp k.val (.tok c content)
            = opc c :: (content ++ [clc c]) := by
          simp [renderSegRK, hlt]
        have hK1 : renderSegRK mp (k.val + 1) (.tok c content)
            = opc c :: (content ++ [clc c]) := by
          simp [renderSegRK, Nat.lt_succ_of_lt hlt]
        have hskip : ∀ ch ∈ opc c :: (content ++ [clc c]), ch ≠ opc k := by
          intro ch hch
          rcases List.mem_cons.mp hch with hch | hch
          · subst hch; exact opc_inj c k hne
          · rcases List.mem_append.mp hch with hch | hch
            · exact (hsg.2.1 ch hch k).1
            · rw [List.mem_singleton.mp hch]; exact clc_ne_opc c k
        show protectCat (opc k) (clc k) (restFun mp k)
            (renderSegRK mp k.val (.tok c content) ++ renderRK mp k.val rest)
            = renderSegRK mp (k.val + 1) (.tok c content) ++ renderRK mp (k.val + 1) rest
        rw [hK, hK1, protectCat_skip _ _ _ _ _ hskip, ih hrest]
      · have hck : c = k := Fin.ext heq
        subst hck
        have hK : renderSegRK mp c.val (.tok c content)
            = opc c :: (idOfC mp c content ++ [clc c]) := by
          simp [renderSegRK]
        have hK1 : renderSegRK mp (c.val + 1) (.tok c content)
            = opc c :: (content ++ [clc c]) := by
          simp [renderSegRK, Nat.lt_succ_self]
        have hrf : restFun mp c (idOfC mp c content) = content := by
          unfold restFun
          rw [hid.2.2.2]
          rfl
        show protectCat (opc c) (clc c) (restFun mp c)
            (renderSegRK mp c.val (.tok c content) ++ renderRK mp c.val rest)
            = renderSegRK mp (c.val + 1) (.tok c content) ++ renderRK mp (c.val + 1) rest
        rw [hK, hK1]
        have hassoc : (opc c :: (idOfC mp c content ++ [clc c])) ++ renderRK mp c.val rest
            = opc c :: (idOfC mp c content ++ clc c :: renderRK mp c.val rest) := by
          simp
        rw [hassoc,
          protectCat_span _ _ _ (idOfC mp c content) _ hid.2.1
            (fun ch hch => digit_not_delim ch (hid.2.2.1 ch hch) c),
          ih hrest, hrf]
        simp
      · have hne : c ≠ k := Fin.ne_of_val_ne (Nat.ne_of_gt hgt)
        have hK : renderSegRK mp k.val (.tok c content)
            = opc c :: (idOfC mp c content ++ [clc c]) := by
          simp [renderSegRK, show ¬c.val < k.val from by omega]
        have hK1 : renderSegRK mp (k.val + 1) (.tok c content)
            = opc c :: (idOfC mp c content ++ [clc c]) := by
          simp [renderSegRK, show ¬c.val < k.val + 1 from by omega]
        have hskip : ∀ ch ∈ opc c :: (idOfC mp c content ++ [clc c]), ch ≠ opc k := by
          intro ch hch
          rcases List.mem_cons.mp hch with hch | hch
          · subst hch; exact opc_inj c k hne
          · rcases List.mem_append.mp hch with hch | hch
            · exact (digit_not_delim ch (hid.2.2.1 ch hch) k).1
            · rw [List.mem_singleton.mp hch]; exact clc_ne_opc c k
        show protectCat (opc k) (clc k) (restFun mp k)
            (renderSegRK mp k.val (.tok c content) ++ renderRK mp k.val rest)
            = renderSegRK mp (k.val + 1) (.tok c content) ++ renderRK mp (k.val + 1) rest
        rw [hK, hK1, protectCat_skip _ _ _ _ _ hskip, ih hrest]

theorem two_infix_cons {a b c : Char} {l : List Char} (h : [a, b] <:+: c :: l) :
    (a = c ∧ l.head? = some b) ∨ [a, b] <:+: l := by
  rcases List.infix_cons_iff.mp h with hpre | hinf
  · rw [List.cons_prefix_cons] at hpre
    obtain ⟨hac, hb⟩ := hpre
    cases l with
    | nil =>
      rw [List.prefix_nil] at hb
      exact absurd hb (by simp)
    | cons d l' =>
      rcases List.cons_prefix_cons.mp hb with ⟨hbd, _⟩
      exact Or.inl ⟨hac, by rw [← hbd]; rfl⟩
  · exact Or.inr hinf

theorem two_infix_append {a b : Char} :
    ∀ (x y : List Char), [a, b] <:+: x ++ y →
      [a, b] <:+: x ∨ [a, b] <:+: y ∨ (x.getLast? = some a ∧ y.head? = some b) := by
  intro x
  induction x with
  | nil => intro y h; exact Or.inr (Or.inl h)
  | cons c x' ih =>
    intro y h
    rw [List.cons_append] at h
    rcases two_infix_cons h with ⟨hac, hhead⟩ | hinf
    · cases x' with
      | nil =>
        refine Or.inr (Or.inr ⟨?_, ?_⟩)
        · rw [hac]; rfl
        · simpa using hhead
      | cons d x'' =>
        left
        have hbd : b = d := by
          simpa using hhead.symm
        have hp : [a, b] <+: c :: d :: x'' := by
          rw [List.cons_prefix_cons]
          refine ⟨hac, ?_⟩
          rw [List.cons_prefix_cons]
          exact ⟨hbd, List.nil_prefix⟩
        exact hp.isInfix
    · rcases ih y hinf with h1 | h2 | ⟨hl, hr⟩
      · exact Or.inl (List.infix_cons h1)
      · exact Or.inr (Or.inl h2)
      · refine Or.inr (Or.inr ⟨?_, hr⟩)
        cases x' with
        | nil => simp at hl
        | cons d x'' => rw [List.getLast?_cons_cons]; exact hl

theorem ltbang_prefix_st : ∀ j : Fin 5, ['<', '!'] <+: st j := by decide

theorem sentFree_of_no_ltbang (l : List Char) (h : ¬['<', '!'] <:+: l) :
    ∀ j : Fin 5, ¬st j <:+: l := by
  intro j hcon
  exact h ((ltbang_prefix_st j).isInfix.trans hcon)

/-- The fully protected rendering never contains `<` followed by `!`: every
`<` in it opens a bracket placeholder and is followed by a digit. -/
theorem renderK4_no_ltbang (mp : TokenMaps) (hm : GoodMaps mp) :
    ∀ segs, (∀ sg ∈ segs, GoodSeg mp sg) → ¬['<', '!'] <:+: renderK mp 4 segs := by
  intro segs
  induction segs with
  | nil =>
    intro _ hcon
    rw [show renderK mp 4 [] = [] from rfl, List.infix_nil] at hcon
    simp at hcon
  | cons sg rest ih =>
    intro hs hcon
    have hrest := fun s hx => hs s (List.mem_cons_of_mem _ hx)
    have hsg := hs sg (List.mem_cons_self _ _)
    rw [show renderK mp 4 (sg :: rest) = renderSegK mp 4 sg ++ renderK mp 4 rest from rfl]
      at hcon
    rcases two_infix_append _ _ hcon with h1 | h2 | ⟨hl, hr⟩
    · cases sg with
      | plain s =>
        have hmem : '<' ∈ s := h1.sublist.subset (by simp)
        exact ((hsg '<' hmem) 3).1 rfl
      | tok c content =>
        have hid := idOfC_spec mp hm c content hsg.2.2
        rw [show renderSegK mp 4 (.tok c content)
            = opc c :: (idOfC mp c content ++ [clc c]) from by simp [renderSegK, c.isLt]] at h1
        rcases two_infix_cons h1 with ⟨hlt, hhead⟩ | hinf
        · cases hidl : idOfC mp c content with
          | nil => exact hid.2.1 hidl
          | cons d id2 =>
            rw [hidl] at hhead
            have hd : d.isDigit = true :=
              hid.2.2.1 d (by rw [hidl]; exact List.mem_cons_self _ _)
            have hdb : d = '!' := by simpa using hhead
            rw [hdb] at hd
            exact absurd hd (by decide)
        · rcases two_infix_append _ _ hinf with g1 | g2 | ⟨gl, _⟩
          · have hmem : '<' ∈ idOfC mp c content := g1.sublist.subset (by simp)
            exact absurd (hid.2.2.1 '<' hmem) (by decide)
          · have := g2.sublist.length_le
            simp at this
          · have hmem : '<' ∈ idOfC mp c content := List.mem_of_getLast?_eq_some gl
            exact absurd (hid.2.2.1 '<' hmem) (by decide)
    · exact ih hrest h2
    · cases sg with
      | plain s =>
        have hmem : '<' ∈ s := List.mem_of_getLast?_eq_some hl
        exact ((hsg '<' hmem) 3).1 rfl
      | tok c content =>
        rw [show renderSegK mp 4 (.tok c content)
            = (opc c :: idOfC mp c content) ++ [clc c] from by
          simp [renderSegK, c.isLt]] at hl
        rw [List.getLast?_concat] at hl
        exact clc_ne_opc c 3 (Option.some.inj hl)

theorem protect_text_render (mp : TokenMaps) (hm : GoodMaps mp) (segs : List Seg)
    (hs : ∀ sg ∈ segs, GoodSeg mp sg) :
    protect_text mp (render segs) = guardEscapes (renderK mp 4 segs) := by
  have h0 : protectCat (opc 0) (clc 0) (protFun mp 0) (renderK mp 0 segs)
      = renderK mp 1 segs := protect_pass mp hm 0 segs hs
  have h1 : protectCat (opc 1) (clc 1) (protFun mp 1) (renderK mp 1 segs)
      = renderK mp 2 segs := protect_pass mp hm 1 segs hs
  have h2 : protectCat (opc 2) (clc 2) (protFun mp 2) (renderK mp 2 segs)
      = renderK mp 3 segs := protect_pass mp hm 2 segs hs
  have h3 : protectCat (opc 3) (clc 3) (protFun mp 3) (renderK mp 3 segs)
      = renderK mp 4 segs := protect_pass mp hm 3 segs hs
  unfold protect_text
  rw [← renderK_zero mp segs, h0, h1, h2, h3]

/-- **C3** (amended): token protection followed by the caller's restoration is
the identity on any text that splits into delimiter-free plain runs and
category tokens whose contents are delimiter-free and mapped in maps of the
shape `scan_markup` produces (nonempty all-digit ids, unique per category).
`restore_text mp (protect_text mp text) = text` for every such text. -/
theorem C3_token_roundtrip (mp : TokenMaps) (segs : List Seg)
    (hm : GoodMaps mp) (hs : ∀ sg ∈ segs, GoodSeg mp sg) :
    restore_text mp (protect_text mp (render segs)) = render segs := by
  have r0 : protectCat (opc 0) (clc 0) (restFun mp 0) (renderRK mp 0 segs)
      = renderRK mp 1 segs := restore_pass mp hm 0 segs hs
  have r1 : protectCat (opc 1) (clc 1) (restFun mp 1) (renderRK mp 1 segs)
      = renderRK mp 2 segs := restore_pass mp hm 1 segs hs
  have r2 : protectCat (opc 2) (clc 2) (restFun mp 2) (renderRK mp 2 segs)
      = renderRK mp 3 segs := restore_pass mp hm 2 segs hs
  have r3 : protectCat (opc 3) (clc 3) (restFun mp 3) (renderRK mp 3 segs)
      = renderRK mp 4 segs := restore_pass mp hm 3 segs hs
  rw [protect_text_render mp hm segs hs]
  unfold restore_text
  rw [escape_roundtrip (renderK mp 4 segs)
      (sentFree_of_no_ltbang _ (renderK4_no_ltbang mp hm segs hs)),
    ← renderRK_zero mp segs, r0, r1, r2, r3, renderRK_four]

/-- **C3** witness: the spec scenario `Press {Start}` with the maps produced by
scanning the same text — protection yields `Press {1}` and restoration yields
the original text back. -/
theorem C3_token_roundtrip_witness :
    restore_text (scan_markup pyDedup "Press \x7bStart\x7d".toList)
        (protect_text (scan_markup pyDedup "Press \x7bStart\x7d".toList)
          (render [Seg.plain "Press ".toList, Seg.tok 0 "Start".toList]))
      = render [Seg.plain "Press ".toList, Seg.tok 0 "Start".toList] :=
  C3_token_roundtrip (scan_markup pyDedup "Press \x7bStart\x7d".toList)
    [Seg.plain "Press ".toList, Seg.tok 0 "Start".toList] (by decide) (by decide)

/-- **C3** counterexample: the round trip fails as stated even though every
token of the text was present in the prior scan of the same content.  For the
text `{x[2]y} [a] [b]` every tag and variable token is scanned and mapped
(with first-occurrence set order), yet restoration rewrites the re-inserted
tag content `x[2]y`: the `[2]` inside it collides with the placeholder id of
`[a]` and the restored text is `{x[a]y} [a] [b]`. -/
theorem C3_cex :
    (∀ m ∈ findAllCat '{' '}' "\x7bx[2]y\x7d [a] [b]".toList,
      (((scan_markup pyDedup "\x7bx[2]y\x7d [a] [b]".toList).tag_map).lookup m).isSome) ∧
    (∀ m ∈ findAllCat '[' ']' "\x7bx[2]y\x7d [a] [b]".toList,
      (((scan_markup pyDedup "\x7bx[2]y\x7d [a] [b]".toList).var_map).lookup m).isSome) ∧
    restore_text (scan_markup pyDedup "\x7bx[2]y\x7d [a] [b]".toList)
        (protect_text (scan_markup pyDedup "\x7bx[2]y\x7d [a] [b]".toList)
          "\x7bx[2]y\x7d [a] [b]".toList)
      ≠ "\x7bx[2]y\x7d [a] [b]".toList := by
  refine ⟨by decide, by decide, by decide⟩

/-! ### Scanner id assignment (claims C5 and C6) -/

/-- **C5**: the id assignment of `scan_markup` follows the iteration order of
the Python set, not first-occurrence order in the content.  For the content
`{B} {A}` the reversed enumeration of the distinct matches is a permutation of
them (hence a possible hash-order of the set), and under it `B` — the first
occurrence in the content — receives id `2` while `A` receives id `1`,
contradicting assignment in first-occurrence order. -/
theorem C5_set_order_dependence :
    ((fun l => (pyDedup l).reverse) (findAllCat '{' '}' "\x7bB\x7d \x7bA\x7d".toList)).Perm
        (pyDedup (findAllCat '{' '}' "\x7bB\x7d \x7bA\x7d".toList)) ∧
      ((scan_markup (fun l => (pyDedup l).reverse)
          "\x7bB\x7d \x7bA\x7d".toList).tag_map).lookup "B".toList = some "2".toList ∧
      ((scan_markup (fun l => (pyDedup l).reverse)
          "\x7bB\x7d \x7bA\x7d".toList).tag_map).lookup "A".toList = some "1".toList := by
  refine ⟨by decide, by decide, by decide⟩

theorem scanCatGo_numeric_none (m : List Char) (hm : isNumericStripped m = true) :
    ∀ ms : List (List Char), ∀ n acc, acc.lookup m = none →
      (scanCatGo true n acc ms).lookup m = none := by
  intro ms
  induction ms with
  | nil => intro n acc h; exact h
  | cons x rest ih =>
    intro n acc h
    show (if true && isNumericStripped x then scanCatGo true n acc rest
          else if (acc.lookup x).isSome then scanCatGo true n acc rest
          else scanCatGo true (n + 1) (acc ++ [(x, natToChars n)]) rest).lookup m = none
    by_cases hx : isNumericStripped x = true
    · rw [if_pos (by simp [hx])]
      exact ih n acc h
    · rw [if_neg (by simp [hx])]
      by_cases hs : (acc.lookup x).isSome
      · rw [if_pos hs]
        exact ih n acc h
      · rw [if_neg hs]
        apply ih
        rw [List.lookup_append, h]
        have hmx : ¬(m == x) = true := by
          intro hcon
          exact hx (beq_iff_eq.mp hcon ▸ hm)
        simp [List.lookup, hmx]

/-- **C6** (amended): a parenthesized match whose content, after removing every
`.` and `,`, is a *nonempty* string of decimal digits is excluded from the
emotion map by scanning any content under any set order, and protection then
substitutes the content for itself (passthrough).  (Content consisting of `.`
and `,` only is *not* excluded — see the counterexample.) -/
theorem C6_numeric_excluded (setOrder : List (List Char) → List (List Char))
    (content m : List Char) (hm : isNumericStripped m = true) :
    ((scan_markup setOrder content).emotion_map).lookup m = none ∧
      protFun (scan_markup setOrder content) 2 m = m := by
  have hnone : ((scan_markup setOrder content).emotion_map).lookup m = none := by
    show (scanCat true (setOrder (findAllCat '(' ')' content))).lookup m = none
    exact scanCatGo_numeric_none m hm _ 1 [] rfl
  refine ⟨hnone, ?_⟩
  show lookupD (scan_markup setOrder content).emotion_map m m = m
  rw [lookupD, hnone]
  rfl

/-- **C6** witness: scanning `(2.5)` leaves `2.5` out of the emotion map and
protection maps it to itself. -/
theorem C6_numeric_excluded_witness :
    ((scan_markup pyDedup "(2.5)".toList).emotion_map).lookup "2.5".toList = none ∧
      protFun (scan_markup pyDedup "(2.5)".toList) 2 "2.5".toList = "2.5".toList :=
  C6_numeric_excluded pyDedup "(2.5)".toList "2.5".toList (by decide)

/-- **C6** counterexample: the content `.` consists only of decimal digits,
`.` and `,` characters (no digits at all), yet scanning `(.)` *does* add it to
the emotion map with id `1`, and protection rewrites `(.)` to `(1)` instead of
passing it through. -/
theorem C6_cex :
    ((scan_markup pyDedup "(.)".toList).emotion_map).lookup ".".toList
        = some "1".toList ∧
      protect_text (scan_markup pyDedup "(.)".toList) "(.)".toList ≠ "(.)".toList := by
  refine ⟨by decide, by decide⟩

/-! ### Line reflow (`split_translated_text`, claim C7) -/

/-- Fuel-driven worker for `pySplit`. -/
def pySplitF : Nat → List Char → List (List Char)
  | 0, _ => []
  | fuel + 1, s =>
    let s1 := s.dropWhile Char.isWhitespace
    match s1 with
    | [] => []
    | c :: rest =>
      (c :: rest.takeWhile (fun ch => !ch.isWhitespace))
        :: pySplitF fuel (rest.dropWhile (fun ch => !ch.isWhitespace))

/-- Python `str.split()` with no argument: split on whitespace runs, dropping
empty pieces. -/
def pySplit (s : List Char) : List (List Char) := pySplitF s.length s

/-- Wrap a line in double quotes: `f'"{line_text}"'`. -/
def quoteL (s : List Char) : List Char := '"' :: (s ++ ['"'])

/-- The greedy word-packing loop of `split_translated_text` (Translate.py
lines 207-215): chunks of `wpl` words joined by single spaces, a trailing
space on every chunk that is not the last, each wrapped in quotes. -/
def buildLinesF (wpl : Nat) : Nat → List (List Char) → List (List Char)
  | 0, _ => []
  | _ + 1, [] => []
  | fuel + 1, w :: ws =>
    quoteL (List.intercalate [' '] ((w :: ws).take wpl)
        ++ if ((w :: ws).drop wpl).isEmpty then [] else [' '])
      :: buildLinesF wpl fuel ((w :: ws).drop wpl)

/-- One step of the merging loop (Translate.py lines 219-221): pop the last
line, strip the closing quote of the new last line and the opening quote of
the popped line, and concatenate. -/
def mergeLastTwo (lines : List (List Char)) : List (List Char) :=
  match lines.reverse with
  | last :: prev :: rest => ((prev.dropLast ++ last.tail) :: rest).reverse
  | _ => lines

/-- Fuel-driven worker for the merging `while` loop (Translate.py lines
218-221). -/
def mergeF : Nat → Nat → List (List Char) → List (List Char)
  | 0, _, lines => lines
  | fuel + 1, target, lines =>
    if target < lines.length ∧ 1 < lines.length then mergeF fuel target (mergeLastTwo lines)
    else lines

def mergeToTarget (target : Nat) (lines : List (List Char)) : List (List Char) :=
  mergeF lines.length target lines

/-- `split_translated_text` (Translate.py lines 187-223).  (At
`original_lines = []` with at least one word Python would raise a
`ZeroDivisionError`; the embedding returns with `words_per_line = 1` there —
all claims are about at least one original line.) -/
def split_translated_text (translated_text : List Char)
    (original_lines : List (List Char)) : List (List Char) :=
  if translated_text = [] then []
  else
    let target_line_count := original_lines.length
    if target_line_count = 1 then [quoteL translated_text]
    else
      let words := pySplit translated_text
      if words = [] then [quoteL translated_text]
      else
        let words_per_line := max 1 (words.length / target_line_count)
        mergeToTarget target_line_count (buildLinesF words_per_line words.length words)

theorem mergeLastTwo_length {lines : List (List Char)} (h : 2 ≤ lines.length) :
    (mergeLastTwo lines).length = lines.length - 1 := by
  unfold mergeLastTwo
  match hrev : lines.reverse with
  | [] =>
    have hlen : lines.length = 0 := by
      have := congrArg List.length hrev
      simpa using this
    exact absurd h (by omega)
  | [x] =>
    have hlen : lines.length = 1 := by
      have := congrArg List.length hrev
      simpa using this
    exact absurd h (by omega)
  | last :: prev :: rest =>
    have hlen : lines.length = rest.length + 2 := by
      have := congrArg List.length hrev
      simp at this
      omega
    simp only [List.length_reverse, List.length_cons]
    omega

theorem mergeF_bounds :
    ∀ fuel target (lines : List (List Char)), lines ≠ [] → lines.length ≤ fuel + 1 →
      mergeF fuel target lines ≠ [] ∧ (mergeF fuel target lines).length ≤ max target 1 := by
  intro fuel
  induction fuel with
  | zero =>
    intro target lines hne hlen
    have h1 : 1 ≤ lines.length := List.length_pos.mpr hne
    refine ⟨hne, ?_⟩
    show lines.length ≤ max target 1
    omega
  | succ fuel ih =>
    intro target lines hne hlen
    rw [show mergeF (fuel + 1) target lines
        = if target < lines.length ∧ 1 < lines.length then
            mergeF fuel target (mergeLastTwo lines) else lines from rfl]
    by_cases hc : target < lines.length ∧ 1 < lines.length
    · rw [if_pos hc]
      have hml : (mergeLastTwo lines).length = lines.length - 1 :=
        mergeLastTwo_length (by omega)
      have hmlne : mergeLastTwo lines ≠ [] := by
        intro hcon
        rw [hcon] at hml
        simp only [List.length_nil] at hml
        omega
      have hlen2 : (mergeLastTwo lines).length ≤ fuel + 1 := by omega
      exact ih target (mergeLastTwo lines) hmlne hlen2
    · rw [if_neg hc]
      have h1 : 1 ≤ lines.length := List.length_pos.mpr hne
      refine ⟨hne, ?_⟩
      push_neg at hc
      by_cases ht : target < lines.length
      · have := hc ht
        omega
      · omega

/-- **C7**: for every nonempty translated text and every original line list of
length `n ≥ 1`, the reflow returns at least one quoted line and at most `n`
lines after merging, and for `n = 1` it returns exactly the single quoted line
wrapping the whole text. -/
theorem C7_reflow_bounds (t : List Char) (ols : List (List Char))
    (ht : t ≠ []) (hn : 1 ≤ ols.length) :
    split_translated_text t ols ≠ [] ∧
      (split_translated_text t ols).length ≤ ols.length ∧
      (ols.length = 1 → split_translated_text t ols = [quoteL t]) := by
  unfold split_translated_text
  rw [if_neg ht]
  by_cases h1 : ols.length = 1
  · rw [if_pos h1]
    exact ⟨by simp, by simp [h1], fun _ => rfl⟩
  · rw [if_neg h1]
    by_cases hw : pySplit t = []
    · rw [if_pos hw]
      exact ⟨by simp, by simpa using hn, fun hcon => absurd hcon h1⟩
    · rw [if_neg hw]
      have hbne : buildLinesF (max 1 ((pySplit t).length / ols.length))
          (pySplit t).length (pySplit t) ≠ [] := by
        match hws : pySplit t with
        | [] => exact absurd hws hw
        | w :: ws => simp [buildLinesF]
      have hm := mergeF_bounds
        (buildLinesF (max 1 ((pySplit t).length / ols.length))
          (pySplit t).length (pySplit t)).length
        ols.length
        (buildLinesF (max 1 ((pySplit t).length / ols.length))
          (pySplit t).length (pySplit t))
        hbne (by omega)
      refine ⟨hm.1, ?_, fun hcon => absurd hcon h1⟩
      have := hm.2
      have hmax : max ols.length 1 = ols.length := by omega
      rw [hmax] at this
      exact this

/-- **C7** witness: a two-word translation against two original lines. -/
theorem C7_reflow_bounds_witness :
    split_translated_text "Halo Dunia".toList ["\"Hello \"".toList, "\"World\"".toList] ≠ [] ∧
      (split_translated_text "Halo Dunia".toList
          ["\"Hello \"".toList, "\"World\"".toList]).length ≤ 2 ∧
      (([( "\"Hello \"".toList : List Char), "\"World\"".toList].length = 1) →
        split_translated_text "Halo Dunia".toList ["\"Hello \"".toList, "\"World\"".toList]
          = [quoteL "Halo Dunia".toList]) :=
  C7_reflow_bounds "Halo Dunia".toList ["\"Hello \"".toList, "\"World\"".toList]
    (by decide) (by decide)

/-! ### The transform call (`translate_text`, claim C9) -/

/-- Outcome of the external `trans` shell command run by `translate_text`:
normal completion with a return code and captured stdout, a timeout
(`subprocess.TimeoutExpired`), or any other exception. -/
inductive ShellResult
  | ok (returncode : Int) (stdout : List Char)
  | timeout
  | exc (msg : List Char)

/-- `translate_text` (Translate.py lines 128-178).  The
`subprocess.run(cmd, ...)` invocation of the external `trans` command is
abstracted as a collaborator `runner` from the input text to a `ShellResult`
(the shell-escaping on line 139 only builds the command string for that
collaborator). -/
def translate_text (runner : List Char → ShellResult) (text : List Char) :
    List Char × Option (List Char) :=
  if text = [] ∨ pyStrip text = [] then (text, some "Empty input".toList)
  else if ['@'] <+: pyStrip text ∨ "res://".toList <:+: text
      ∨ ".png".toList <:+ text ∨ ".jpg".toList <:+ text ∨ ".mp3".toList <:+ text then
    (text, some "Command skipped".toList)
  else
    match runner text with
    | .timeout => (text, some "Translation timeout".toList)
    | .exc m => (text, some ("Error: ".toList ++ m))
    | .ok rc out =>
      if rc ≠ 0 then (text, some "Translation command failed".toList)
      else
        let translated := pyStrip out
        if translated = [] then (text, some "Empty translation result".toList)
        else (unguardEscapes translated, none)

/-- **C9** counterexample: the no-op passthrough inputs are reported with the
errors `"Empty input"` and `"Command skipped"`, not with the error
`"skipped"` — at input `@cmd` the returned error is `"Command skipped"`. -/
theorem C9_cex :
    translate_text (fun _ => ShellResult.ok 0 "x".toList) "@cmd".toList
        = ("@cmd".toList, some "Command skipped".toList) ∧
      some "Command skipped".toList ≠ some "skipped".toList := by
  refine ⟨by decide, by decide⟩

/-- **C9** (amended): `translate_text` treats empty/whitespace-only text, text
whose stripped form starts with `@`, text containing `res://`, and text ending
in `.png`, `.jpg` or `.mp3` as no-op passthrough: it returns the input text
itself with the non-empty error `"Empty input"` (empty/whitespace case) or
`"Command skipped"` (the other cases), and attempts no transform — the result
does not depend on the collaborator. -/
theorem C9_skip_passthrough (runner runner2 : List Char → ShellResult)
    (text : List Char)
    (h : (text = [] ∨ pyStrip text = [])
      ∨ (['@'] <+: pyStrip text ∨ "res://".toList <:+: text
          ∨ ".png".toList <:+ text ∨ ".jpg".toList <:+ text ∨ ".mp3".toList <:+ text)) :
    (translate_text runner text).1 = text ∧
      (translate_text runner text).2
        = some (if text = [] ∨ pyStrip text = [] then "Empty input".toList
                else "Command skipped".toList) ∧
      translate_text runner text = translate_text runner2 text := by
  unfold translate_text
  by_cases h1 : text = [] ∨ pyStrip text = []
  · rw [if_pos h1, if_pos h1, if_pos h1]
    exact ⟨rfl, rfl, rfl⟩
  · have h2 := h.resolve_left h1
    rw [if_neg h1, if_neg h1, if_neg h1, if_pos h2, if_pos h2]
    exact ⟨rfl, rfl, rfl⟩

/-- **C9** witness: the passthrough at `@cmd` is identical under a timing-out
collaborator and a succeeding one. -/
theorem C9_skip_passthrough_witness :
    (translate_text (fun _ => ShellResult.timeout) "@cmd".toList).1 = "@cmd".toList ∧
      (translate_text (fun _ => ShellResult.timeout) "@cmd".toList).2
        = some (if "@cmd".toList = [] ∨ pyStrip "@cmd".toList = []
                then "Empty input".toList else "Command skipped".toList) ∧
      translate_text (fun _ => ShellResult.timeout) "@cmd".toList
        = translate_text (fun _ => ShellResult.ok 0 "y".toList) "@cmd".toList :=
  C9_skip_passthrough (fun _ => ShellResult.timeout) (fun _ => ShellResult.ok 0 "y".toList)
    "@cmd".toList (Or.inr (Or.inl (by decide)))

/-! ### The entry state machine (`process_po_file`) -/

inductive Mode
  | normal
  | multiline
deriving DecidableEq

structure Stats where
  success : Nat
  failed : Nat
  errors : Nat
  skipped : Nat
  total_entries : Nat
deriving DecidableEq

structure PState where
  mode : Mode
  multiline_start_line : Nat
  multiline_lines : List (List Char)
  multiline_text : List Char
  processed_lines : List (List Char)
  stats : Stats
deriving DecidableEq

/-- The state machine variables right after initialization
(Translate.py lines 34-40 and 247-252). -/
def initState : PState where
  mode := .normal
  multiline_start_line := 0
  multiline_lines := []
  multiline_text := []
  processed_lines := []
  stats := ⟨0, 0, 0, 0, 0⟩

/-- `extract_quoted_text` (Translate.py lines 180-185). -/
def extract_quoted_text (line : List Char) : List Char :=
  let l := pyStrip line
  if ['"'] <+: l ∧ ['"'] <:+ l then (l.drop 1).dropLast else []

/-- Try `re.search(r'msgid\s+"([^"]*)"', s)` at the current position: the
literal `msgid`, one or more whitespace characters, then a quoted group free
of inner quotes. -/
def matchMsgidAt (s : List Char) : Option (List Char) :=
  if "msgid".toList <+: s then
    let rest := s.drop 5
    if rest.takeWhile Char.isWhitespace = [] then none
    else
      match rest.dropWhile Char.isWhitespace with
      | '"' :: r =>
        (match r.dropWhile (fun c => c ≠ '"') with
         | '"' :: _ => some (r.takeWhile (fun c => c ≠ '"'))
         | _ => none)
      | _ => none
  else none

def searchMsgidF : Nat → List Char → Option (List Char)
  | 0, _ => none
  | fuel + 1, s =>
    match matchMsgidAt s with
    | some r => some r
    | none =>
      match s with
      | [] => none
      | _ :: rest => searchMsgidF fuel rest

/-- `re.search(r'msgid\s+"([^"]*)"', s)`: the group of the leftmost match. -/
def searchMsgid (s : List Char) : Option (List Char) := searchMsgidF (s.length + 1) s

/-- One iteration of the line loop of `process_po_file` (Translate.py lines
256-354), processing 1-based line `i`.  The log writes and progress prints are
I/O and are not part of the state. -/
def stepLine (mp : TokenMaps) (runner : List Char → ShellResult) (st : PState)
    (i : Nat) (line : List Char) : PState :=
  let original_line := pyRstrip line
  if st.mode = Mode.normal then
    if "msgid \"".toList <+: pyStrip original_line
        ∧ pyStrip original_line ≠ "msgid \"\"".toList then
      match searchMsgid original_line with
      | some original_text =>
        if pyStrip original_text ≠ [] then
          let protected_text := protect_text mp original_text
          let tr := translate_text runner protected_text
          if (tr.2).isSome then
            { st with stats := { st.stats with failed := st.stats.failed + 1 },
                      processed_lines := st.processed_lines ++ [line] }
          else
            { st with stats := { st.stats with success := st.stats.success + 1 },
                      processed_lines := st.processed_lines ++ [line] }
        else
          { st with processed_lines := st.processed_lines ++ [line] }
      | none => { st with processed_lines := st.processed_lines ++ [line] }
    else if pyStrip original_line = "msgid \"\"".toList then
      { st with mode := .multiline, multiline_start_line := i,
                multiline_lines := [line], multiline_text := [] }
    else
      { st with processed_lines := st.processed_lines ++ [line] }
  else
    if ['"'] <+: pyStrip original_line ∧ ['"'] <:+ pyStrip original_line then
      { st with multiline_text := st.multiline_text ++ extract_quoted_text original_line,
                multiline_lines := st.multiline_lines ++ [line] }
    else if "msgstr \"\"".toList <+: pyStrip original_line then
      let st1 := { st with processed_lines := st.processed_lines ++ st.multiline_lines }
      let st2 :=
        if pyStrip st.multiline_text ≠ [] then
          let protected_text := protect_text mp st.multiline_text
          let tr := translate_text runner protected_text
          if (tr.2).isSome then
            { st1 with stats := { st1.stats with failed := st1.stats.failed + 1 },
                       processed_lines := st1.processed_lines ++ [line] }
          else
            let original_text_lines := st.multiline_lines.filter
              (fun l => decide (['"'] <+: pyStrip l))
            let translated_lines := split_translated_text tr.1 original_text_lines
            { st1 with stats := { st1.stats with success := st1.stats.success + 1 },
                       processed_lines := st1.processed_lines ++ [line]
                         ++ translated_lines.map (fun tl => tl ++ ['\n']) }
        else
          { st1 with stats := { st1.stats with skipped := st1.stats.skipped + 1 },
                     processed_lines := st1.processed_lines ++ [line] }
      { st2 with mode := .normal, multiline_lines := [], multiline_text := [],
                 stats := { st2.stats with total_entries := st2.stats.total_entries + 1 } }
    else
      { st with processed_lines := st.processed_lines ++ [line] }

def runLines (mp : TokenMaps) (runner : List Char → ShellResult) :
    PState → Nat → List (List Char) → PState
  | st, _, [] => st
  | st, i, l :: rest => runLines mp runner (stepLine mp runner st i l) (i + 1) rest

/-- The core of `process_po_file` (Translate.py lines 247-359): scan the
joined file content into the four token maps, then run the state machine over
the lines starting in normal mode at line 1.  The output file is written from
the final `processed_lines`. -/
def process_po_file (setOrder : List (List Char) → List (List Char))
    (runner : List Char → ShellResult) (lines : List (List Char)) : PState :=
  runLines (scan_markup setOrder lines.flatten) runner initState 1 lines

/-- **C1**: evaluating the code at an input that ends while still inside a
multiline span.  The two input lines `msgid ""` and `"Hello"` are buffered
into the span and the run ends in MULTILINE state with an *empty* output —
both lines are silently dropped, where the claim (and the spec) require that
every input line be represented in the output. -/
theorem C1_unterminated_drops_lines :
    (process_po_file pyDedup (fun _ => ShellResult.timeout)
        ["msgid \"\"\n".toList, "\"Hello\"\n".toList]).processed_lines = [] ∧
      (process_po_file pyDedup (fun _ => ShellResult.timeout)
        ["msgid \"\"\n".toList, "\"Hello\"\n".toList]).mode = Mode.multiline ∧
      (["msgid \"\"\n".toList, ("\"Hello\"\n".toList : List Char)].length = 2) := by
  refine ⟨by decide, by decide, by decide⟩

/-- **C2**: when a multiline span is terminated by a `msgstr ""` line and the
transform call fails (returns any error), the buffered msgid lines and the
terminating `msgstr ""` line are all emitted to the output unchanged, the
failed counter is incremented by exactly one (success and skipped unchanged),
the entry is counted, and processing continues in NORMAL state with the span
buffers reset. -/
theorem C2_multiline_failure (mp : TokenMaps) (runner : List Char → ShellResult)
    (st : PState) (i : Nat) (line err : List Char)
    (hmode : st.mode = Mode.multiline)
    (hline : "msgstr \"\"".toList <+: pyStrip (pyRstrip line))
    (htext : pyStrip st.multiline_text ≠ [])
    (herr : (translate_text runner (protect_text mp st.multiline_text)).2 = some err) :
    (stepLine mp runner st i line).processed_lines
        = st.processed_lines ++ st.multiline_lines ++ [line] ∧
      (stepLine mp runner st i line).stats.failed = st.stats.failed + 1 ∧
      (stepLine mp runner st i line).stats.success = st.stats.success ∧
      (stepLine mp runner st i line).stats.skipped = st.stats.skipped ∧
      (stepLine mp runner st i line).stats.total_entries = st.stats.total_entries + 1 ∧
      (stepLine mp runner st i line).mode = Mode.normal ∧
      (stepLine mp runner st i line).multiline_lines = [] ∧
      (stepLine mp runner st i line).multiline_text = [] := by
  have hm : ∃ t, pyStrip (pyRstrip line) = 'm' :: t := by
    obtain ⟨t, ht⟩ := hline
    exact ⟨"sgstr \"\"".toList ++ t, by rw [← ht]; rfl⟩
  have hnq : ¬(['"'] <+: pyStrip (pyRstrip line) ∧ ['"'] <:+ pyStrip (pyRstrip line)) := by
    rintro ⟨hq, _⟩
    obtain ⟨t, ht⟩ := hm
    rw [ht, List.cons_prefix_cons] at hq
    exact absurd hq.1 (by decide)
  have hms : ¬st.mode = Mode.normal := by rw [hmode]; decide
  simp only [stepLine]
  rw [if_neg hms, if_neg hnq, if_pos hline, if_pos htext, herr]
  simp [List.append_assoc]

/-- **C2** witness: a buffered two-line span whose transform times out. -/
theorem C2_multiline_failure_witness :
    (stepLine (scan_markup pyDedup []) (fun _ => ShellResult.timeout)
        { mode := .multiline, multiline_start_line := 1,
          multiline_lines := ["msgid \"\"\n".toList, "\"Hi\"\n".toList],
          multiline_text := "Hi".toList, processed_lines := [],
          stats := ⟨0, 0, 0, 0, 0⟩ } 3 "msgstr \"\"\n".toList).processed_lines
        = [] ++ ["msgid \"\"\n".toList, "\"Hi\"\n".toList] ++ ["msgstr \"\"\n".toList] ∧
      (stepLine (scan_markup pyDedup []) (fun _ => ShellResult.timeout)
        { mode := .multiline, multiline_start_line := 1,
          multiline_lines := ["msgid \"\"\n".toList, "\"Hi\"\n".toList],
          multiline_text := "Hi".toList, processed_lines := [],
          stats := ⟨0, 0, 0, 0, 0⟩ } 3 "msgstr \"\"\n".toList).stats.failed = 0 + 1 ∧
      (stepLine (scan_markup pyDedup []) (fun _ => ShellResult.timeout)
        { mode := .multiline, multiline_start_line := 1,
          multiline_lines := ["msgid \"\"\n".toList, "\"Hi\"\n".toList],
          multiline_text := "Hi".toList, processed_lines := [],
          stats := ⟨0, 0, 0, 0, 0⟩ } 3 "msgstr \"\"\n".toList).stats.success = 0 ∧
      (stepLine (scan_markup pyDedup []) (fun _ => ShellResult.timeout)
        { mode := .multiline, multiline_start_line := 1,
          multiline_lines := ["msgid \"\"\n".toList, "\"Hi\"\n".toList],
          multiline_text := "Hi".toList, processed_lines := [],
          stats := ⟨0, 0, 0, 0, 0⟩ } 3 "msgstr \"\"\n".toList).stats.skipped = 0 ∧
      (stepLine (scan_markup pyDedup []) (fun _ => ShellResult.timeout)
        { mode := .multiline, multiline_start_line := 1,
          multiline_lines := ["msgid \"\"\n".toList, "\"Hi\"\n".toList],
          multiline_text := "Hi".toList, processed_lines := [],
          stats := ⟨0, 0, 0, 0, 0⟩ } 3 "msgstr \"\"\n".toList).stats.total_entries = 0 + 1 ∧
      (stepLine (scan_markup pyDedup []) (fun _ => ShellResult.timeout)
        { mode := .multiline, multiline_start_line := 1,
          multiline_lines := ["msgid \"\"\n".toList, "\"Hi\"\n".toList],
          multiline_text := "Hi".toList, processed_lines := [],
          stats := ⟨0, 0, 0, 0, 0⟩ } 3 "msgstr \"\"\n".toList).mode = Mode.normal ∧
      (stepLine (scan_markup pyDedup []) (fun _ => ShellResult.timeout)
        { mode := .multiline, multiline_start_line := 1,
          multiline_lines := ["msgid \"\"\n".toList, "\"Hi\"\n".toList],
          multiline_text := "Hi".toList, processed_lines := [],
          stats := ⟨0, 0, 0, 0, 0⟩ } 3 "msgstr \"\"\n".toList).multiline_lines = [] ∧
      (stepLine (scan_markup pyDedup []) (fun _ => ShellResult.timeout)
        { mode := .multiline, multiline_start_line := 1,
          multiline_lines := ["msgid \"\"\n".toList, "\"Hi\"\n".toList],
          multiline_text := "Hi".toList, processed_lines := [],
          stats := ⟨0, 0, 0, 0, 0⟩ } 3 "msgstr \"\"\n".toList).multiline_text = [] :=
  C2_multiline_failure (scan_markup pyDedup []) (fun _ => ShellResult.timeout)
    { mode := .multiline, multiline_start_line := 1,
      multiline_lines := ["msgid \"\"\n".toList, "\"Hi\"\n".toList],
      multiline_text := "Hi".toList, processed_lines := [],
      stats := ⟨0, 0, 0, 0, 0⟩ } 3 "msgstr \"\"\n".toList
    "Translation timeout".toList rfl (by decide) (by decide) (by decide)

/-- **C8**: in NORMAL state, a single-line `msgid "<non-empty>"` line (not the
empty-string form) is emitted to the output as the original input line
unchanged — in every branch, whether the transform succeeded, failed, or was
not run at all — and the machine stays in NORMAL state. -/
theorem C8_single_line_unchanged (mp : TokenMaps) (runner : List Char → ShellResult)
    (st : PState) (i : Nat) (line : List Char)
    (hmode : st.mode = Mode.normal)
    (hpre : "msgid \"".toList <+: pyStrip (pyRstrip line))
    (hne : pyStrip (pyRstrip line) ≠ "msgid \"\"".toList) :
    (stepLine mp runner st i line).processed_lines = st.processed_lines ++ [line] ∧
      (stepLine mp runner st i line).mode = Mode.normal := by
  simp only [stepLine]
  rw [if_pos hmode, if_pos ⟨hpre, hne⟩]
  cases hs : searchMsgid (pyRstrip line) with
  | none => exact ⟨rfl, hmode⟩
  | some t =>
    dsimp only
    by_cases ht : pyStrip t ≠ []
    · rw [if_pos ht]
      by_cases herr : (translate_text runner (protect_text mp t)).2.isSome = true
      · rw [if_pos herr]
        exact ⟨rfl, hmode⟩
      · rw [if_neg herr]
        exact ⟨rfl, hmode⟩
    · rw [if_neg ht]
      exact ⟨rfl, hmode⟩

/-- **C8** witness: a single-line msgid whose transform times out is emitted
unchanged. -/
theorem C8_single_line_unchanged_witness :
    (stepLine (scan_markup pyDedup []) (fun _ => ShellResult.timeout) initState 1
        "msgid \"Hello\"\n".toList).processed_lines = [] ++ ["msgid \"Hello\"\n".toList] ∧
      (stepLine (scan_markup pyDedup []) (fun _ => ShellResult.timeout) initState 1
        "msgid \"Hello\"\n".toList).mode = Mode.normal :=
  C8_single_line_unchanged (scan_markup pyDedup []) (fun _ => ShellResult.timeout)
    initState 1 "msgid \"Hello\"\n".toList rfl (by decide) (by decide)

/-- Componentwise order on the run statistics. -/
def statsLe (a b : Stats) : Prop :=
  a.success ≤ b.success ∧ a.failed ≤ b.failed ∧ a.errors ≤ b.errors ∧
    a.skipped ≤ b.skipped ∧ a.total_entries ≤ b.total_entries

/-- **C10**: (1) every step of the state machine only ever increases the five
counters; (2) `total_entries` changes only when a multiline span is terminated
by a `msgstr ""` line, and then by exactly one; (3) a single-line msgid entry
in NORMAL state never touches `total_entries`, and when its quoted content is
non-empty it increments exactly one of success/failed; (4) hence after
processing the single line `msgid "x"` with a failing transform,
success + failed + skipped exceeds `total_entries`. -/
theorem C10_counters (mp : TokenMaps) (runner : List Char → ShellResult) :
    (∀ st i line, statsLe st.stats (stepLine mp runner st i line).stats) ∧
      (∀ st i line,
        (stepLine mp runner st i line).stats.total_entries ≠ st.stats.total_entries →
          st.mode = Mode.multiline ∧
            "msgstr \"\"".toList <+: pyStrip (pyRstrip line) ∧
            (stepLine mp runner st i line).stats.total_entries
              = st.stats.total_entries + 1) ∧
      (∀ st i line, st.mode = Mode.normal →
        "msgid \"".toList <+: pyStrip (pyRstrip line) →
        pyStrip (pyRstrip line) ≠ "msgid \"\"".toList →
          (stepLine mp runner st i line).stats.total_entries = st.stats.total_entries ∧
            (∀ t, searchMsgid (pyRstrip line) = some t → pyStrip t ≠ [] →
              (stepLine mp runner st i line).stats.success
                  + (stepLine mp runner st i line).stats.failed
                = st.stats.success + st.stats.failed + 1)) ∧
      ((process_po_file pyDedup (fun _ => ShellResult.timeout)
            ["msgid \"x\"\n".toList]).stats.success
          + (process_po_file pyDedup (fun _ => ShellResult.timeout)
            ["msgid \"x\"\n".toList]).stats.failed
          + (process_po_file pyDedup (fun _ => ShellResult.timeout)
            ["msgid \"x\"\n".toList]).stats.skipped
        > (process_po_file pyDedup (fun _ => ShellResult.timeout)
            ["msgid \"x\"\n".toList]).stats.total_entries) := by
  refine ⟨?_, ?_, ?_, by decide⟩
  · intro st i line
    simp only [stepLine]
    repeat' split
    all_goals simp only [statsLe]
    all_goals refine ⟨?_, ?_, ?_, ?_, ?_⟩
    all_goals simp
  · intro st i line
    cases hmode : st.mode with
    | normal =>
      intro hne
      exfalso
      apply hne
      simp only [stepLine]
      rw [if_pos hmode]
      repeat' split
      all_goals rfl
    | multiline =>
      intro hne
      have hms : ¬st.mode = Mode.normal := by rw [hmode]; decide
      simp only [stepLine] at hne ⊢
      rw [if_neg hms] at hne ⊢
      by_cases hq : ['"'] <+: pyStrip (pyRstrip line) ∧ ['"'] <:+ pyStrip (pyRstrip line)
      · rw [if_pos hq] at hne
        exact absurd rfl hne
      · rw [if_neg hq] at hne ⊢
        by_cases hstr : "msgstr \"\"".toList <+: pyStrip (pyRstrip line)
        · rw [if_pos hstr] at hne ⊢
          refine ⟨by trivial, hstr, ?_⟩
          repeat' split
          all_goals rfl
        · rw [if_neg hstr] at hne
          exact absurd rfl hne
  · intro st i line hmode hpre hne
    simp only [stepLine]
    rw [if_pos hmode, if_pos ⟨hpre, hne⟩]
    constructor
    · repeat' split
      all_goals rfl
    · intro t hsearch htne
      rw [hsearch]
      dsimp only
      rw [if_pos htne]
      by_cases herr : (translate_text runner (protect_text mp t)).2.isSome = true
      · rw [if_pos herr]
        simp
        omega
      · rw [if_neg herr]
        simp
        omega

/-- **C10** witness: at the single-line entry `msgid "x"` with a timing-out
transform, total_entries stays 0 while success + failed grows by one. -/
theorem C10_counters_witness :
    (stepLine (scan_markup pyDedup []) (fun _ => ShellResult.timeout) initState 1
        "msgid \"x\"".toList).stats.total_entries = initState.stats.total_entries ∧
      (stepLine (scan_markup pyDedup []) (fun _ => ShellResult.timeout) initState 1
            "msgid \"x\"".toList).stats.success
          + (stepLine (scan_markup pyDedup []) (fun _ => ShellResult.timeout) initState 1
            "msgid \"x\"".toList).stats.failed
        = initState.stats.success + initState.stats.failed + 1 := by
  have h := ((C10_counters (scan_markup pyDedup []) (fun _ => ShellResult.timeout)).2.2.1)
    initState 1 "msgid \"x\"".toList rfl (by decide) (by decide)
  exact ⟨h.1, h.2 "x".toList (by decide) (by decide)⟩

end Gabut
